import Mathlib

/-!
# Conway's Game of Life on a packed bit grid (`gol.c`)

A shallow embedding of `cto1`, `bitIsAlive`, `update`, `renderField` and the
running loop of `main` from `src/gol.c`, followed by theorems about the packed
addressing, the neighbour count, the frozen border, the transition rule, the
blinker oscillator, the block still life, dead grids and the rendering.

Modelling conventions.
* A `Field` (`uint8_t*`) is the list of the bytes of the allocation.  Every
  read `f[index]` and every write `f[index] = v` is checked against the length
  of that list: an access outside the allocation (undefined behaviour in C)
  makes the operation return `none`.
* `uint8_t`, `uint32_t` and `size_t` values are natural numbers; conversions to
  these types are written `wrap8`, `wrap32`, `wrapSize` (`size_t` is 64 bits
  wide).  `int` arithmetic on promoted `uint8_t` operands stays below `2^31`
  and is left unwrapped.
* A `for (size_t i = lo; i < hi; i++)` loop whose body does not assign `i` is
  `forLoop body (hi - lo) lo`.
-/

namespace GoL

/-! ## Machine integers -/

/-- Conversion to `uint8_t`. -/
def wrap8 (n : Nat) : Nat := n % 2 ^ 8

/-- Conversion to `uint32_t`. -/
def wrap32 (n : Nat) : Nat := n % 2 ^ 32

/-- Conversion to `size_t`. -/
def wrapSize (n : Nat) : Nat := n % 2 ^ 64

/-- The value of `(size_t)(n - k)` for `n` a promoted `uint8_t` or a `size_t`
and `k` a small constant: subtraction modulo `2^64`, which wraps around when
`n < k`. -/
def subSize (n k : Nat) : Nat := if k ≤ n then n - k else 2 ^ 64 - (k - n)

/-! ## The program -/

/-- The type `Field` of `gol.c`: a buffer of bytes. -/
abbrev Field := List Nat

/-- The counting loop `for (size_t i = lo; i < lo + n; i++) body`, threading
the state `s` through the iterations; an iteration returning `none` aborts
the loop. -/
def forLoop {σ : Type} (body : σ → Nat → Option σ) : Nat → Nat → σ → Option σ
  | 0, _, s => some s
  | n + 1, i, s =>
    match body s i with
    | none => none
    | some s1 => forLoop body n (i + 1) s1

/-- Function `cto1` of `gol.c` (lines 25-28): `y*width+x` on `uint8_t`
parameters, returned as `uint32_t`. -/
def cto1 (y x width : Nat) : Nat :=
  wrap32 (wrap8 y * wrap8 width + wrap8 x)

/-- The `switch (cell_offset)` of `bitIsAlive` and `update`: `BIT_1` .. `BIT_8`.
The switch has no default; the offset is always `x % 8`, so the last line is
never reached. -/
def maskOf (cell_offset : Nat) : Nat :=
  match cell_offset with
  | 0 => 0x01
  | 1 => 0x02
  | 2 => 0x04
  | 3 => 0x08
  | 4 => 0x10
  | 5 => 0x20
  | 6 => 0x40
  | 7 => 0x80
  | _ => 0

/-- The byte index `y*width/8 + x/8` computed by `bitIsAlive` (line 71) and by
`update` (line 143). -/
def byteIndex (y x width : Nat) : Nat := y * width / 8 + x / 8

/-- The bit offset `x % 8` computed by `bitIsAlive` (line 72) and by `update`
(line 144). -/
def cellOffset (x : Nat) : Nat := x % 8

/-- Function `bitIsAlive` of `gol.c` (lines 69-106).  The three coordinates are
`uint8_t` parameters; the result is `f[index] & mask` as a `uint8_t`, or `none`
when `index` is outside the buffer. -/
def bitIsAlive (f : Field) (y x width : Nat) : Option Nat :=
  let y := wrap8 y
  let x := wrap8 x
  let width := wrap8 width
  let index := wrap32 (byteIndex y x width)
  let cell_offset := wrap8 (cellOffset x)
  let mask := maskOf cell_offset
  match f[index]? with
  | none => none
  | some b => some (wrap8 (b &&& mask))

/-- One iteration of the copy loop of `update` (lines 120-121):
`new_field[index] = field[index]` with `index = cto1(i, j, width / 8)`. -/
def copyCell (field : Field) (width : Nat) (new_field : Field) (i j : Nat) :
    Option Field :=
  let index := cto1 i j (width / 8)
  match field[index]? with
  | none => none
  | some v => if index < new_field.length then some (new_field.set index v) else none

/-- The body of the innermost loop of `update` (lines 135-139) for the
position `(live_y, live_x)`: skip the cell `(i, j)` itself, otherwise read the
input `field` through `bitIsAlive` and increment the `uint8_t` counter
`num_live_neighbors` when the result is non-zero. -/
def countCell (field : Field) (width i j live_y : Nat)
    (num_live_neighbors live_x : Nat) : Option Nat :=
  if live_y = i ∧ live_x = j then some num_live_neighbors
  else
    match bitIsAlive field live_y live_x width with
    | none => none
    | some a =>
      if a ≠ 0 then some (wrap8 (num_live_neighbors + 1))
      else some num_live_neighbors

/-- The neighbour count of `update` (lines 130-141): the two loops over
`live_y` in `i-1 .. i+1` and `live_x` in `j-1 .. j+1`, starting from
`num_live_neighbors = 0`. -/
def numLiveNeighbors (field : Field) (i j width : Nat) : Option Nat :=
  forLoop (fun num_live_neighbors live_y =>
    forLoop (countCell field width i j live_y)
      (wrapSize (j + 2) - subSize j 1) (subSize j 1) num_live_neighbors)
    (wrapSize (i + 2) - subSize i 1) (subSize i 1) 0

/-- The compound assignments `new_field[cell_index] ^= mask` and
`new_field[cell_index] |= mask`: read the byte, combine, store as `uint8_t`. -/
def modifyAt (new_field : Field) (cell_index : Nat) (g : Nat → Nat) : Option Field :=
  match new_field[cell_index]? with
  | none => none
  | some b => some (new_field.set cell_index (wrap8 (g b)))

/-- The body of the interior loop of `update` (lines 130-189) for the cell
`(i, j)`: count the neighbours in `field`, then flip or set the bit of the
cell in `new_field` according to the four rules. -/
def updateCell (field : Field) (width : Nat) (new_field : Field) (i j : Nat) :
    Option Field :=
  match numLiveNeighbors field i j width with
  | none => none
  | some num_live_neighbors =>
    let cell_index := wrap32 (wrapSize (wrapSize (i * width) / 8 + j / 8))
    let cell_offset := wrap8 (cellOffset j)
    let mask := maskOf cell_offset
    match bitIsAlive field i j width with
    | none => none
    | some a =>
      if a ≠ 0 then
        if num_live_neighbors < 2 ∨ num_live_neighbors > 3 then
          modifyAt new_field cell_index (fun b => b ^^^ mask)
        else some new_field
      else
        if num_live_neighbors = 3 then
          modifyAt new_field cell_index (fun b => b ||| mask)
        else some new_field

/-- Function `update` of `gol.c` (lines 113-194): allocate a zeroed buffer of
`height * width/8` bytes, copy the input into it byte by byte, then run
`updateCell` for `i` in `1 .. height-2` and `j` in `1 .. width-2`.  The loop
bounds `height - 1` and `width - 1` are `int` values compared with a `size_t`
counter, hence converted to `size_t`. -/
def update (field : Field) (height width : Nat) : Option Field :=
  let height := wrap8 height
  let width := wrap8 width
  let new_field : Field := List.replicate (height * width / 8) 0
  match forLoop (fun nf i =>
      forLoop (fun nf j => copyCell field width nf i j) (width / 8) 0 nf)
      height 0 new_field with
  | none => none
  | some new_field =>
    forLoop (fun nf i =>
      forLoop (fun nf j => updateCell field width nf i j)
        (subSize width 1 - 1) 1 nf)
      (subSize height 1 - 1) 1 new_field

/-- The screen, as far as `renderField` is concerned: the character last
written by `mvaddch` at each position `(y, x)`. -/
abbrev Screen := Nat → Nat → Char

/-- The call `mvaddch(y, x, ch)` of ncurses, seen as an update of the screen
map.  The coordinates passed by `renderField` are below 256, so their
conversion to `int` is left unwrapped. -/
def mvaddch (scr : Screen) (y x : Nat) (ch : Char) : Screen :=
  fun y1 x1 => if y1 = y ∧ x1 = x then ch else scr y1 x1

/-- One of the eight statements `if (f[index] & BIT_n) mvaddch(i, x, 'x')` of
`renderField` (lines 43-58). -/
def paintBit (f : Field) (index mask : Nat) (scr : Screen) (i x : Nat) : Option Screen :=
  match f[index]? with
  | none => none
  | some b => if b &&& mask ≠ 0 then some (mvaddch scr i x 'x') else some scr

/-- The body of the loop over `j` of `renderField` (lines 39-58): blank the 8
positions of the group, then mark the cells whose bit is set in the byte
`f[cto1(i, j, width/8)]`. -/
def renderGroup (f : Field) (width : Nat) (scr : Screen) (i j : Nat) : Option Screen :=
  match forLoop (fun scr k => some (mvaddch scr i (j * 8 + k) ' ')) 8 0 scr with
  | none => none
  | some scr =>
    let index := cto1 i j (width / 8)
    (paintBit f index 0x01 scr i (j * 8 + 0)).bind fun scr =>
    (paintBit f index 0x02 scr i (j * 8 + 1)).bind fun scr =>
    (paintBit f index 0x04 scr i (j * 8 + 2)).bind fun scr =>
    (paintBit f index 0x08 scr i (j * 8 + 3)).bind fun scr =>
    (paintBit f index 0x10 scr i (j * 8 + 4)).bind fun scr =>
    (paintBit f index 0x20 scr i (j * 8 + 5)).bind fun scr =>
    (paintBit f index 0x40 scr i (j * 8 + 6)).bind fun scr =>
    paintBit f index 0x80 scr i (j * 8 + 7)

/-- Function `renderField` of `gol.c` (lines 33-61), as a transformation of
the screen. -/
def renderField (f : Field) (height width : Nat) (scr : Screen) : Option Screen :=
  let height := wrap8 height
  let width := wrap8 width
  forLoop (fun scr i =>
    forLoop (fun scr j => renderGroup f width scr i j) (width / 8) 0 scr)
    height 0 scr

/-- The running loop of `main` (lines 225-233), cut after `n` rounds: the
field is replaced `n` times by its `update`. -/
def updateN (field : Field) (height width : Nat) : Nat → Option Field
  | 0 => some field
  | n + 1 =>
    match update field height width with
    | none => none
    | some g => updateN g height width n

/-! ## Specification vocabulary -/

/-- A validly constructed grid: `height` and `width` fit their `uint8_t`
parameters, `height >= 1`, `width` is a positive multiple of 8, the buffer has
`height * width / 8` bytes and every element is a byte. -/
structure ValidGrid (f : Field) (height width : Nat) : Prop where
  height_pos : 1 ≤ height
  height_u8 : height < 256
  width_pos : 0 < width
  width_mul8 : width % 8 = 0
  width_u8 : width < 256
  len : f.length = height * width / 8
  bytes : ∀ b ∈ f, b < 256

/-- Truth value of a `bitIsAlive` result: non-zero means alive.  A failed read
counts as not alive. -/
def truthy : Option Nat → Bool
  | some v => v != 0
  | none => false

/-- The cell `(row, col)` is alive in `f`, as reported by `bitIsAlive`. -/
def alive (f : Field) (row col width : Nat) : Bool :=
  truthy (bitIsAlive f row col width)

/-- The 8 Moore neighbours of `(row, col)`: the positions `(row+dr, col+dc)`
with `dr, dc` in `{-1, 0, 1}` and `(dr, dc) ≠ (0, 0)`. -/
def mooreNeighbours (row col : Nat) : List (Nat × Nat) :=
  [(row - 1, col - 1), (row - 1, col), (row - 1, col + 1),
   (row, col - 1), (row, col + 1),
   (row + 1, col - 1), (row + 1, col), (row + 1, col + 1)]

/-- Number of cells alive in `f` among the 8 Moore neighbours of `(row, col)`. -/
def liveNeighbourCount (f : Field) (row col width : Nat) : Nat :=
  ((mooreNeighbours row col).filter (fun p => alive f p.1 p.2 width)).length

/-- Bit `col % 8` (bit 0 least significant) of the byte at index
`row * (width/8) + col/8` of `f`; `false` when there is no such byte. -/
def getBit (f : Field) (width row col : Nat) : Bool :=
  match f[row * (width / 8) + col / 8]? with
  | some b => b.testBit (col % 8)
  | none => false

/-- Contribution of the position `(y, x)` to the neighbour count of the cell
`(i, j)`: nothing for the cell itself, one for a live cell. -/
def cellInd (f : Field) (width i j y x : Nat) : Nat :=
  if y = i ∧ x = j then 0 else (alive f y x width).toNat

/-- The four rules of lines 176-189 as a function of the state of the cell and
of its neighbour count: a live cell stays alive with 2 or 3 live neighbours, a
dead cell becomes alive with exactly 3. -/
def rule (a : Bool) (n : Nat) : Bool :=
  if a then decide (n = 2 ∨ n = 3) else decide (n = 3)

/-- State of the interior cell `(row, col)` in the next generation. -/
def nextCell (f : Field) (width row col : Nat) : Bool :=
  rule (getBit f width row col) (liveNeighbourCount f row col width)

/-- The cell `(row, col)` is an interior cell of a `height` x `width` grid. -/
def Interior (height width row col : Nat) : Prop :=
  1 ≤ row ∧ row + 1 < height ∧ 1 ≤ col ∧ col + 1 < width

instance (height width row col : Nat) : Decidable (Interior height width row col) := by
  unfold Interior; infer_instance

/-- Invariant of the interior loops of `update`: the output buffer `nf` has the
size of the input `field`, holds bytes, carries the next state at the cells
already processed (`D`) and the input state everywhere else. -/
def LoopInv (field : Field) (height width : Nat) (D : Nat → Nat → Prop)
    (nf : Field) : Prop :=
  nf.length = field.length ∧ (∀ b ∈ nf, b < 256) ∧
  (∀ r c, r < height → c < width → D r c →
    getBit nf width r c = nextCell field width r c) ∧
  (∀ r c, r < height → c < width → ¬ D r c →
    getBit nf width r c = getBit field width r c)

/-- Cells processed by the interior loops before the iteration `(i, j)`. -/
def Done (width i j : Nat) (r c : Nat) : Prop :=
  1 ≤ c ∧ c + 1 < width ∧ ((1 ≤ r ∧ r < i) ∨ (r = i ∧ c < j))

/-- The cell `(row, col)` is one of the three cells `(i, j-1)`, `(i, j)`,
`(i, j+1)` of a horizontal blinker centred at `(i, j)`. -/
def inBlinker (i j row col : Nat) : Bool :=
  decide (row = i ∧ (col + 1 = j ∨ col = j ∨ col = j + 1))

/-- The cell `(row, col)` is one of the three cells `(i-1, j)`, `(i, j)`,
`(i+1, j)` of a vertical blinker centred at `(i, j)`. -/
def inBlinkerV (i j row col : Nat) : Bool :=
  decide (col = j ∧ (row + 1 = i ∨ row = i ∨ row = i + 1))

/-- Number of Moore neighbours of `(row, col)` that belong to the pattern `P`. -/
def patternCount (P : Nat → Nat → Bool) (row col : Nat) : Nat :=
  ((mooreNeighbours row col).filter (fun p => P p.1 p.2)).length


/-- The cell `(row, col)` is one of the four cells of the 2 x 2 block whose
top left corner is `(r0, c0)`. -/
def inBlock (r0 c0 row col : Nat) : Bool :=
  decide ((row = r0 ∨ row = r0 + 1) ∧ (col = c0 ∨ col = c0 + 1))

/-- The cell `(row, col)` is the cell `(r0, c0)`. -/
def inCell (r0 c0 row col : Nat) : Bool :=
  decide (row = r0 ∧ col = c0)

/-- The `k`-th of the 8 neighbour positions of `(row, col)`. -/
def neighbourAt (row col : Nat) (k : Fin 8) : Nat × Nat :=
  (mooreNeighbours row col).getD k.val (row, col)

/-- The character `renderField` is to show for the cell `(row, col)`. -/
def glyph (f : Field) (width row col : Nat) : Char :=
  if alive f row col width then 'x' else ' '

/-- A pair of dimensions accepted for a grid: both fit a `uint8_t`, the height
is at least 1 and the width is a positive multiple of 8. -/
def ValidDims (height width : Nat) : Prop :=
  1 ≤ height ∧ height < 256 ∧ 0 < width ∧ width % 8 = 0 ∧ width < 256

/-- The screen after `if (t) mvaddch(i, x, 'x')`. -/
def paint (t : Bool) (scr : Screen) (i x : Nat) : Screen :=
  if t then mvaddch scr i x 'x' else scr

/-- Invariant of the loops of `renderField` started on the screen `scr`: the
positions of the rows before `i` and those of row `i` before column `j * 8`
show the glyph of their cell, every other position is as in `scr`. -/
def RenderInv (f : Field) (width : Nat) (scr : Screen) (i j : Nat) (s : Screen) : Prop :=
  ∀ y x, s y x =
    if x < width ∧ (y < i ∨ (y = i ∧ x < j * 8)) then glyph f width y x else scr y x

/-! ## Machine integers and bits -/

theorem wrap8_of_lt {n : Nat} (h : n < 256) : wrap8 n = n := by
  unfold wrap8; omega

theorem wrap32_of_lt {n : Nat} (h : n < 4294967296) : wrap32 n = n := by
  unfold wrap32; omega

theorem wrapSize_of_lt {n : Nat} (h : n < 18446744073709551616) : wrapSize n = n := by
  unfold wrapSize; omega

theorem subSize_one {n : Nat} (h1 : 1 ≤ n) : subSize n 1 = n - 1 := by
  unfold subSize; rw [if_pos h1]

theorem maskOf_eq_two_pow {k : Nat} (hk : k < 8) : maskOf k = 2 ^ k := by
  interval_cases k <;> rfl

theorem two_pow_lt_256 {k : Nat} (hk : k < 8) : 2 ^ k < 256 := by
  interval_cases k <;> decide

theorem and_two_pow_ne_zero (b k : Nat) : ((b &&& 2 ^ k) != 0) = b.testBit k := by
  rw [Nat.and_two_pow]
  cases h : b.testBit k
  · simp
  · simp

/-- For a width that is a multiple of 8, `y*width/8` is `y*(width/8)`. -/
theorem mul_width_div {y width : Nat} (h8 : width % 8 = 0) :
    y * width / 8 = y * (width / 8) :=
  Nat.mul_div_assoc y (Nat.dvd_of_mod_eq_zero h8)

theorem byteIndex_eq {y x width : Nat} (h8 : width % 8 = 0) :
    byteIndex y x width = y * (width / 8) + x / 8 := by
  unfold byteIndex; rw [mul_width_div h8]

theorem byteIndex_lt {y x width : Nat} (h8 : width % 8 = 0) (hy : y < 256)
    (hx : x < 256) (hw : width < 256) : byteIndex y x width < 8192 := by
  rw [byteIndex_eq h8]
  have h1 : y * (width / 8) ≤ 255 * 31 :=
    Nat.mul_le_mul (by omega) (by omega)
  omega

/-- What `bitIsAlive` computes, once the conversions are seen to be
identities: the masked byte at `y * (width/8) + x/8`. -/
theorem bitIsAlive_eq (f : Field) {y x width : Nat} (h8 : width % 8 = 0)
    (hy : y < 256) (hx : x < 256) (hw : width < 256) :
    bitIsAlive f y x width =
      (f[y * (width / 8) + x / 8]?).map (fun b => b &&& 2 ^ (x % 8)) := by
  have hlt := byteIndex_lt h8 hy hx hw
  have hm : x % 8 < 8 := Nat.mod_lt _ (by decide)
  unfold bitIsAlive
  simp only [wrap8_of_lt hy, wrap8_of_lt hx, wrap8_of_lt hw, cellOffset]
  rw [wrap32_of_lt (by omega), wrap8_of_lt (by omega), maskOf_eq_two_pow hm,
    byteIndex_eq h8]
  cases f[y * (width / 8) + x / 8]? with
  | none => rfl
  | some b =>
    have : b &&& 2 ^ (x % 8) < 256 :=
      Nat.lt_of_le_of_lt Nat.and_le_right (two_pow_lt_256 hm)
    simp [wrap8_of_lt this]

theorem alive_eq_getBit (f : Field) {y x width : Nat} (h8 : width % 8 = 0)
    (hy : y < 256) (hx : x < 256) (hw : width < 256) :
    alive f y x width = getBit f width y x := by
  unfold alive getBit
  rw [bitIsAlive_eq f h8 hy hx hw]
  cases f[y * (width / 8) + x / 8]? with
  | none => rfl
  | some b => simp [truthy, and_two_pow_ne_zero]

/-! ## Loops -/

/-- Loop invariant rule for `forLoop`: an invariant `I`, indexed by the loop
counter, that holds on entry and is carried by every iteration holds on exit,
and the loop does not abort. -/
theorem forLoop_inv {σ : Type} (body : σ → Nat → Option σ) (I : Nat → σ → Prop) :
    ∀ (n lo : Nat) (s : σ), I lo s →
      (∀ i t, lo ≤ i → i < lo + n → I i t → ∃ t1, body t i = some t1 ∧ I (i + 1) t1) →
      ∃ t, forLoop body n lo s = some t ∧ I (lo + n) t := by
  intro n
  induction n with
  | zero => intro lo s h0 _; exact ⟨s, rfl, h0⟩
  | succ n ih =>
    intro lo s h0 hstep
    obtain ⟨s1, hb, hI⟩ := hstep lo s (Nat.le_refl _) (by omega) h0
    obtain ⟨t, ht, hIt⟩ := ih (lo + 1) s1 hI
      (fun i t hi hlt hIi => hstep i t (by omega) (by omega) hIi)
    refine ⟨t, ?_, ?_⟩
    · simp only [forLoop, hb]; exact ht
    · have : lo + (n + 1) = lo + 1 + n := by omega
      rw [this]; exact hIt

theorem forLoop_three {σ : Type} (body : σ → Nat → Option σ) (lo : Nat) (s : σ) :
    forLoop body 3 lo s =
      (body s lo).bind (fun s1 => (body s1 (lo + 1)).bind (fun s2 => body s2 (lo + 1 + 1))) := by
  simp only [forLoop]
  cases body s lo with
  | none => rfl
  | some s1 =>
    simp only [Option.bind]
    cases body s1 (lo + 1) with
    | none => rfl
    | some s2 =>
      simp only []
      cases body s2 (lo + 1 + 1) <;> rfl

/-! ## Reads inside a valid grid -/

theorem index_lt {height width y x : Nat} (h8 : width % 8 = 0) (hy : y < height)
    (hx : x < width) : y * (width / 8) + x / 8 < height * (width / 8) := by
  have h1 : (y + 1) * (width / 8) ≤ height * (width / 8) :=
    Nat.mul_le_mul_right _ hy
  rw [Nat.succ_mul] at h1
  omega

theorem ValidGrid.length_eq {f : Field} {height width : Nat}
    (hv : ValidGrid f height width) : f.length = height * (width / 8) := by
  rw [hv.len, mul_width_div hv.width_mul8]

theorem ValidGrid.read {f : Field} {height width : Nat}
    (hv : ValidGrid f height width) {y x : Nat} (hy : y < height) (hx : x < width) :
    ∃ b, f[y * (width / 8) + x / 8]? = some b := by
  have h := index_lt hv.width_mul8 hy hx
  rw [← hv.length_eq] at h
  exact ⟨f[y * (width / 8) + x / 8], List.getElem?_eq_getElem h⟩

theorem ValidGrid.bitIsAlive_some {f : Field} {height width : Nat}
    (hv : ValidGrid f height width) {y x : Nat} (hy : y < height) (hx : x < width) :
    ∃ v, bitIsAlive f y x width = some v := by
  obtain ⟨b, hb⟩ := hv.read hy hx
  have h1 := hv.height_u8
  have h2 := hv.width_u8
  rw [bitIsAlive_eq f hv.width_mul8 (by omega) (by omega) hv.width_u8, hb]
  exact ⟨_, rfl⟩

/-! ## The neighbour count -/

theorem length_filter_cons {α : Type} (p : α → Bool) (x : α) (l : List α) :
    ((x :: l).filter p).length = (p x).toNat + (l.filter p).length := by
  cases h : p x <;> simp [List.filter_cons, h]
  omega

theorem cellInd_le_one (f : Field) (width i j y x : Nat) : cellInd f width i j y x ≤ 1 := by
  unfold cellInd
  split
  · omega
  · cases alive f y x width <;> simp

theorem countCell_eq {f : Field} {height width : Nat} (hv : ValidGrid f height width)
    (i j : Nat) {y x n : Nat} (hy : y < height) (hx : x < width) (hn : n < 255) :
    countCell f width i j y n x = some (n + cellInd f width i j y x) := by
  unfold countCell cellInd
  split
  · rfl
  · obtain ⟨v, hv1⟩ := hv.bitIsAlive_some hy hx
    simp only [alive, hv1, truthy]
    by_cases h0 : v = 0
    · simp [h0]
    · have h1 : (v != 0) = true := by simp [h0]
      simp [h0, h1, wrap8_of_lt (show n + 1 < 256 by omega)]

theorem countRow_eq {f : Field} {height width : Nat} (hv : ValidGrid f height width)
    (i j : Nat) {y x n : Nat} (hy : y < height) (hx : x + 2 < width) (hn : n + 3 ≤ 255) :
    forLoop (countCell f width i j y) 3 x n =
      some (n + cellInd f width i j y x + cellInd f width i j y (x + 1)
        + cellInd f width i j y (x + 2)) := by
  have h1 := cellInd_le_one f width i j y x
  have h2 := cellInd_le_one f width i j y (x + 1)
  simp only [forLoop]
  rw [countCell_eq hv i j hy (by omega) (by omega)]
  simp only []
  rw [countCell_eq hv i j hy (by omega) (by omega)]
  simp only []
  rw [countCell_eq hv i j hy (by omega) (by omega)]

/-- The counter computed by the loops of `update` is the number of live Moore
neighbours in the input grid. -/
theorem numLiveNeighbors_eq {f : Field} {height width : Nat}
    (hv : ValidGrid f height width) {i j : Nat} (hi : 1 ≤ i) (hi2 : i + 1 < height)
    (hj : 1 ≤ j) (hj2 : j + 1 < width) :
    numLiveNeighbors f i j width = some (liveNeighbourCount f i j width) := by
  have hh := hv.height_u8
  have hw := hv.width_u8
  obtain ⟨a, rfl⟩ : ∃ a, i = a + 1 := ⟨i - 1, by omega⟩
  obtain ⟨b, rfl⟩ : ∃ b, j = b + 1 := ⟨j - 1, by omega⟩
  have e1 : subSize (a + 1) 1 = a := by rw [subSize_one (by omega)]; rfl
  have e2 : subSize (b + 1) 1 = b := by rw [subSize_one (by omega)]; rfl
  have e3 : wrapSize (a + 1 + 2) - a = 3 := by rw [wrapSize_of_lt (by omega)]; omega
  have e4 : wrapSize (b + 1 + 2) - b = 3 := by rw [wrapSize_of_lt (by omega)]; omega
  unfold numLiveNeighbors
  rw [e1, e2, e3, e4]
  have c1 := cellInd_le_one f width (a + 1) (b + 1)
  rw [forLoop_three (fun n y => forLoop (countCell f width (a + 1) (b + 1) y) 3 b n)]
  rw [countRow_eq hv _ _ (by omega) (by omega) (by omega)]
  simp only [Option.bind]
  rw [countRow_eq hv _ _ (by omega) (by omega)
    (by have := c1 a b; have := c1 a (b + 1); have := c1 a (b + 2); omega)]
  simp only [Option.bind]
  rw [countRow_eq hv _ _ (by omega) (by omega)
    (by have := c1 a b; have := c1 a (b + 1); have := c1 a (b + 2)
        have := c1 (a + 1) b; have := c1 (a + 1) (b + 1); have := c1 (a + 1) (b + 2)
        omega)]
  refine congrArg some ?_
  have n1 : ¬ (a = a + 1) := by omega
  have n2 : ¬ (a + 2 = a + 1) := by omega
  have n3 : ¬ (b = b + 1) := by omega
  have n4 : ¬ (b + 2 = b + 1) := by omega
  have e5 : a + 1 + 1 = a + 2 := rfl
  have e6 : b + 1 + 1 = b + 2 := rfl
  simp only [liveNeighbourCount, mooreNeighbours, cellInd, Nat.add_sub_cancel, e5, e6,
    length_filter_cons, List.filter_nil, List.length_nil, n1, n2, n3, n4, false_and,
    and_false, if_false, and_self, if_true]
  omega

/-! ## The copy loop -/

theorem cto1_eq {y x width : Nat} (hy : y < 256) (hx : x < 256) (hw : width < 256) :
    cto1 y x width = y * width + x := by
  unfold cto1
  rw [wrap8_of_lt hy, wrap8_of_lt hx, wrap8_of_lt hw]
  have h1 : y * width ≤ 255 * 255 := Nat.mul_le_mul (by omega) (by omega)
  exact wrap32_of_lt (by omega)

theorem copyCell_spec {field : Field} {height width : Nat}
    (hv : ValidGrid field height width) {i j : Nat} (hi : i < height)
    (hj : j < width / 8) (nf : Field) (hlen : nf.length = field.length)
    (hpre : ∀ k, k < i * (width / 8) + j → nf[k]? = field[k]?) :
    ∃ nf1, copyCell field width nf i j = some nf1 ∧ nf1.length = field.length ∧
      ∀ k, k < i * (width / 8) + (j + 1) → nf1[k]? = field[k]? := by
  have hh := hv.height_u8
  have hw := hv.width_u8
  have hidx : i * (width / 8) + j < field.length := by
    rw [hv.length_eq]
    have h1 : (i + 1) * (width / 8) ≤ height * (width / 8) := Nat.mul_le_mul_right _ hi
    rw [Nat.succ_mul] at h1
    omega
  unfold copyCell
  rw [cto1_eq (by omega) (by omega) (by omega)]
  simp only [List.getElem?_eq_getElem hidx, hlen, hidx, if_true]
  refine ⟨_, rfl, by simp [hlen], ?_⟩
  intro k hk
  rw [List.getElem?_set]
  by_cases hki : i * (width / 8) + j = k
  · subst hki
    simp [hlen, hidx]
  · rw [if_neg hki]
    exact hpre k (by omega)

/-- The copy loops of `update` (lines 116-123) return the input buffer. -/
theorem copyLoop_eq {field : Field} {height width : Nat}
    (hv : ValidGrid field height width) (nf : Field) (hlen : nf.length = field.length) :
    forLoop (fun nf i => forLoop (fun nf j => copyCell field width nf i j) (width / 8) 0 nf)
      height 0 nf = some field := by
  obtain ⟨t, ht, hl, hall⟩ := forLoop_inv
    (fun nf i => forLoop (fun nf j => copyCell field width nf i j) (width / 8) 0 nf)
    (fun i t => t.length = field.length ∧ ∀ k, k < i * (width / 8) → t[k]? = field[k]?)
    height 0 nf ⟨hlen, fun k hk => by omega⟩
    (by
      intro i t _ hi ⟨hl, hpre⟩
      obtain ⟨t1, ht1, hl1, hall1⟩ := forLoop_inv (fun nf j => copyCell field width nf i j)
        (fun j t => t.length = field.length ∧
          ∀ k, k < i * (width / 8) + j → t[k]? = field[k]?)
        (width / 8) 0 t ⟨hl, fun k hk => hpre k (by omega)⟩
        (by
          intro j u _ hj ⟨hlu, hpu⟩
          obtain ⟨u1, hu1, hlu1, hpu1⟩ :=
            copyCell_spec hv (by omega) (by omega) u hlu hpu
          exact ⟨u1, hu1, hlu1, hpu1⟩)
      refine ⟨t1, ht1, hl1, ?_⟩
      intro k hk
      rw [Nat.succ_mul] at hk
      exact hall1 k (by omega))
  rw [ht]
  rw [Nat.zero_add] at hall
  refine congrArg some (List.ext_getElem? ?_)
  intro k
  by_cases hk : k < height * (width / 8)
  · exact hall k (by omega)
  · rw [List.getElem?_eq_none (by rw [hl, hv.length_eq]; omega),
      List.getElem?_eq_none (by rw [hv.length_eq]; omega)]

/-! ## Writing one cell -/

/-- Two in-range cells stored in the same byte lie in the same row and in the
same group of 8 columns. -/
theorem addr_inj {width r c i j : Nat} (h8 : width % 8 = 0) (hc : c < width)
    (hj : j < width) (h : r * (width / 8) + c / 8 = i * (width / 8) + j / 8) :
    r = i ∧ c / 8 = j / 8 := by
  rcases Nat.lt_trichotomy r i with hlt | heq | hgt
  · have h1 : (r + 1) * (width / 8) ≤ i * (width / 8) := Nat.mul_le_mul_right _ hlt
    rw [Nat.succ_mul] at h1
    omega
  · subst heq; omega
  · have h1 : (i + 1) * (width / 8) ≤ r * (width / 8) := Nat.mul_le_mul_right _ hgt
    rw [Nat.succ_mul] at h1
    omega

theorem getBit_set (nf : Field) (width idx v r c : Nat) (hidx : idx < nf.length) :
    getBit (nf.set idx v) width r c =
      if r * (width / 8) + c / 8 = idx then v.testBit (c % 8) else getBit nf width r c := by
  unfold getBit
  rw [List.getElem?_set]
  by_cases h : idx = r * (width / 8) + c / 8
  · subst h; simp [hidx]
  · rw [if_neg h, if_neg (fun h1 => h h1.symm)]

theorem testBit_wrap8 (v m : Nat) (hm : m < 8) : (wrap8 v).testBit m = v.testBit m := by
  unfold wrap8
  rw [Nat.testBit_mod_two_pow]
  simp [hm]

theorem wrap8_lt (v : Nat) : wrap8 v < 256 := by
  unfold wrap8; omega

/-- Effect of `new_field[cell_index] op= mask` on the grid, for an operation
`g` that changes at most bit `j % 8` of a byte, turning it into `G` of its
former value: the cell `(i, j)` changes accordingly and no other cell does. -/
theorem modifyAt_spec {height width i j : Nat} (h8 : width % 8 = 0) (hi : i < height)
    (hj : j < width) (nf : Field) (hlen : nf.length = height * (width / 8))
    (hb : ∀ b ∈ nf, b < 256) (g : Nat → Nat) (G : Bool → Bool)
    (hg : ∀ b m, m < 8 → m ≠ j % 8 → (g b).testBit m = b.testBit m)
    (hG : ∀ b, (g b).testBit (j % 8) = G (b.testBit (j % 8))) :
    ∃ nf1, modifyAt nf (i * (width / 8) + j / 8) g = some nf1 ∧
      nf1.length = nf.length ∧ (∀ b ∈ nf1, b < 256) ∧
      getBit nf1 width i j = G (getBit nf width i j) ∧
      ∀ r c, r < height → c < width → ¬ (r = i ∧ c = j) →
        getBit nf1 width r c = getBit nf width r c := by
  have hidx : i * (width / 8) + j / 8 < nf.length := by
    rw [hlen]; exact index_lt h8 hi hj
  have hjm : j % 8 < 8 := Nat.mod_lt _ (by decide)
  unfold modifyAt
  rw [List.getElem?_eq_getElem hidx]
  refine ⟨_, rfl, by simp, ?_, ?_, ?_⟩
  · intro b hbm
    rcases List.mem_or_eq_of_mem_set hbm with h | h
    · exact hb b h
    · rw [h]; exact wrap8_lt _
  · rw [getBit_set nf width _ _ i j hidx, if_pos rfl, testBit_wrap8 _ _ hjm, hG]
    unfold getBit
    rw [List.getElem?_eq_getElem hidx]
  · intro r c hr hc hne
    rw [getBit_set nf width _ _ r c hidx]
    split
    · next heq =>
      obtain ⟨hri, hcj⟩ := addr_inj h8 hc hj heq
      have hm : c % 8 ≠ j % 8 := by
        intro hmod
        apply hne
        exact ⟨hri, by omega⟩
      rw [testBit_wrap8 _ _ (Nat.mod_lt _ (by decide)),
        hg _ _ (Nat.mod_lt _ (by decide)) hm]
      unfold getBit
      rw [heq, List.getElem?_eq_getElem hidx]
    · rfl

theorem xor_mask_other (j b m : Nat) (hne : m ≠ j % 8) :
    (b ^^^ 2 ^ (j % 8)).testBit m = b.testBit m := by
  rw [Nat.testBit_xor, Nat.testBit_two_pow_of_ne (fun h => hne h.symm)]
  simp

theorem xor_mask_self (j b : Nat) :
    (b ^^^ 2 ^ (j % 8)).testBit (j % 8) = !(b.testBit (j % 8)) := by
  rw [Nat.testBit_xor, Nat.testBit_two_pow_self]
  simp

theorem or_mask_other (j b m : Nat) (hne : m ≠ j % 8) :
    (b ||| 2 ^ (j % 8)).testBit m = b.testBit m := by
  rw [Nat.testBit_or, Nat.testBit_two_pow_of_ne (fun h => hne h.symm)]
  simp

theorem or_mask_self (j b : Nat) :
    (b ||| 2 ^ (j % 8)).testBit (j % 8) = true := by
  rw [Nat.testBit_or, Nat.testBit_two_pow_self]
  simp

/-! ## One iteration of the interior loop -/

theorem cellIndex_eq {height width i j : Nat} (h8 : width % 8 = 0) (hh : height < 256)
    (hw : width < 256) (hi : i < height) (hj : j < width) :
    wrap32 (wrapSize (wrapSize (i * width) / 8 + j / 8)) = i * (width / 8) + j / 8 := by
  have h1 : i * width ≤ 255 * 255 := Nat.mul_le_mul (by omega) (by omega)
  rw [wrapSize_of_lt (show i * width < 18446744073709551616 by omega),
    wrapSize_of_lt (by omega), wrap32_of_lt (by omega), mul_width_div h8]

/-- The body of the interior loop, run on an output buffer in which the cell
`(i, j)` still has its input state, stores the next state of `(i, j)` and
leaves every other cell of the output as it was. -/
theorem updateCell_spec {field : Field} {height width : Nat}
    (hv : ValidGrid field height width) {i j : Nat} (hi : 1 ≤ i) (hi2 : i + 1 < height)
    (hj : 1 ≤ j) (hj2 : j + 1 < width) (nf : Field) (hlen : nf.length = field.length)
    (hb : ∀ b ∈ nf, b < 256) (hcur : getBit nf width i j = getBit field width i j) :
    ∃ nf1, updateCell field width nf i j = some nf1 ∧ nf1.length = field.length ∧
      (∀ b ∈ nf1, b < 256) ∧ getBit nf1 width i j = nextCell field width i j ∧
      ∀ r c, r < height → c < width → ¬ (r = i ∧ c = j) →
        getBit nf1 width r c = getBit nf width r c := by
  have hh := hv.height_u8
  have hw := hv.width_u8
  have h8 := hv.width_mul8
  have hjm : j % 8 < 8 := Nat.mod_lt _ (by decide)
  have hlen1 : nf.length = height * (width / 8) := by rw [hlen, hv.length_eq]
  obtain ⟨v, hv1⟩ := hv.bitIsAlive_some (show i < height by omega) (show j < width by omega)
  have hal : (v != 0) = getBit field width i j := by
    have := alive_eq_getBit field h8 (show i < 256 by omega) (show j < 256 by omega) hw
    rw [alive, hv1] at this
    exact this
  unfold updateCell
  rw [numLiveNeighbors_eq hv hi hi2 hj hj2]
  simp only [hv1, cellOffset]
  rw [cellIndex_eq h8 hh hw (show i < height by omega) (show j < width by omega),
    wrap8_of_lt (show j % 8 < 256 by omega), maskOf_eq_two_pow hjm]
  unfold nextCell rule
  by_cases h0 : v = 0
  · have hd : getBit field width i j = false := by rw [← hal, h0]; rfl
    rw [hd] at hcur
    simp only [h0, ne_eq, not_true_eq_false, if_false, hd]
    by_cases h3 : liveNeighbourCount field i j width = 3
    · obtain ⟨nf1, e1, e2, e3, e4, e5⟩ := modifyAt_spec h8 (show i < height by omega)
        (show j < width by omega) nf hlen1 hb (fun b => b ||| 2 ^ (j % 8)) (fun _ => true)
        (fun b m _ hne => or_mask_other j b m hne) (fun b => or_mask_self j b)
      refine ⟨nf1, by simp only [h3, if_true]; exact e1, by rw [e2, hlen], e3, ?_, e5⟩
      rw [e4]; simp [h3]
    · refine ⟨nf, by simp only [h3, if_false], hlen, hb, ?_, fun _ _ _ _ _ => rfl⟩
      rw [hcur]; simp [h3]
  · have hd : getBit field width i j = true := by rw [← hal]; simp [h0]
    rw [hd] at hcur
    simp only [h0, ne_eq, not_false_eq_true, if_true, hd]
    by_cases h3 : liveNeighbourCount field i j width < 2 ∨
        liveNeighbourCount field i j width > 3
    · obtain ⟨nf1, e1, e2, e3, e4, e5⟩ := modifyAt_spec h8 (show i < height by omega)
        (show j < width by omega) nf hlen1 hb (fun b => b ^^^ 2 ^ (j % 8)) (fun x => !x)
        (fun b m _ hne => xor_mask_other j b m hne) (fun b => xor_mask_self j b)
      refine ⟨nf1, by simp only [h3, if_true]; exact e1, by rw [e2, hlen], e3, ?_, e5⟩
      rw [e4, hcur]
      symm
      simp only [Bool.not_true, decide_eq_false_iff_not]
      omega
    · refine ⟨nf, by simp only [h3, if_false], hlen, hb, ?_, fun _ _ _ _ _ => rfl⟩
      rw [hcur]
      symm
      simp only [decide_eq_true_eq]
      omega

/-! ## The interior loops -/

theorem LoopInv.congr {field : Field} {height width : Nat} {D E : Nat → Nat → Prop}
    {nf : Field} (h : LoopInv field height width D nf) (hDE : ∀ r c, D r c ↔ E r c) :
    LoopInv field height width E nf := by
  obtain ⟨h1, h2, h3, h4⟩ := h
  exact ⟨h1, h2, fun r c hr hc hE => h3 r c hr hc ((hDE r c).2 hE),
    fun r c hr hc hE => h4 r c hr hc (fun hD => hE ((hDE r c).1 hD))⟩

/-- One iteration `(i, j)` of the interior loops carries the invariant from
`Done i j` to `Done i (j+1)`. -/
theorem updateCell_inv {field : Field} {height width : Nat}
    (hv : ValidGrid field height width) {i j : Nat} (hi : 1 ≤ i) (hi2 : i + 1 < height)
    (hj : 1 ≤ j) (hj2 : j + 1 < width) (nf : Field)
    (hI : LoopInv field height width (Done width i j) nf) :
    ∃ nf1, updateCell field width nf i j = some nf1 ∧
      LoopInv field height width (Done width i (j + 1)) nf1 := by
  obtain ⟨h1, h2, h3, h4⟩ := hI
  have hcur : getBit nf width i j = getBit field width i j :=
    h4 i j (by omega) (by omega) (by unfold Done; omega)
  obtain ⟨nf1, e1, e2, e3, e4, e5⟩ := updateCell_spec hv hi hi2 hj hj2 nf h1 h2 hcur
  refine ⟨nf1, e1, e2, e3, ?_, ?_⟩
  · intro r c hr hc hD
    by_cases hij : r = i ∧ c = j
    · rw [hij.1, hij.2]; exact e4
    · rw [e5 r c hr hc hij]
      exact h3 r c hr hc (by unfold Done at hD ⊢; omega)
  · intro r c hr hc hD
    have hij : ¬ (r = i ∧ c = j) := by unfold Done at hD; omega
    rw [e5 r c hr hc hij]
    exact h4 r c hr hc (by unfold Done at hD ⊢; omega)

/-- The inner loop over `j` in `1 .. width-2` processes row `i`. -/
theorem updateRow_inv {field : Field} {height width : Nat}
    (hv : ValidGrid field height width) {i : Nat} (hi : 1 ≤ i) (hi2 : i + 1 < height)
    (nf : Field) (hI : LoopInv field height width (Done width i 1) nf) :
    ∃ nf1, forLoop (fun nf j => updateCell field width nf i j) (subSize width 1 - 1) 1 nf
        = some nf1 ∧
      LoopInv field height width (Done width (i + 1) 1) nf1 := by
  have hw := hv.width_pos
  obtain ⟨nf1, e1, e2⟩ := forLoop_inv (fun nf j => updateCell field width nf i j)
    (fun j t => LoopInv field height width (Done width i j) t)
    (subSize width 1 - 1) 1 nf hI
    (by
      intro j t hj1 hj2 ht
      rw [subSize_one (by omega)] at hj2
      exact updateCell_inv hv hi hi2 hj1 (by omega) t ht)
  refine ⟨nf1, e1, e2.congr ?_⟩
  intro r c
  rw [subSize_one (by omega)]
  unfold Done
  omega

/-- The interior loops of `update` (lines 126-191), started on a copy of the
input, store the next state in every interior cell and leave the other cells
as they are. -/
theorem interior_inv {field : Field} {height width : Nat}
    (hv : ValidGrid field height width) :
    ∃ nf1, forLoop (fun nf i =>
        forLoop (fun nf j => updateCell field width nf i j) (subSize width 1 - 1) 1 nf)
        (subSize height 1 - 1) 1 field = some nf1 ∧
      LoopInv field height width (Interior height width) nf1 := by
  have hh := hv.height_pos
  have h0 : LoopInv field height width (Done width 1 1) field :=
    ⟨rfl, hv.bytes, fun r c _ _ hD => by unfold Done at hD; omega, fun _ _ _ _ _ => rfl⟩
  obtain ⟨nf1, e1, e2⟩ := forLoop_inv
    (fun nf i =>
      forLoop (fun nf j => updateCell field width nf i j) (subSize width 1 - 1) 1 nf)
    (fun i t => LoopInv field height width (Done width i 1) t)
    (subSize height 1 - 1) 1 field h0
    (by
      intro i t hi1 hi2 ht
      rw [subSize_one (by omega)] at hi2
      exact updateRow_inv hv hi1 (by omega) t ht)
  refine ⟨nf1, e1, e2.congr ?_⟩
  intro r c
  rw [subSize_one (by omega)]
  unfold Done Interior
  omega

/-- Characterisation of `update` on a valid grid: it returns a buffer of the
same length, made of bytes, whose interior cells hold the next state computed
from the input and whose other cells are those of the input. -/
theorem update_spec {field : Field} {height width : Nat}
    (hv : ValidGrid field height width) :
    ∃ g, update field height width = some g ∧ g.length = field.length ∧
      (∀ b ∈ g, b < 256) ∧
      (∀ r c, r < height → c < width → Interior height width r c →
        getBit g width r c = nextCell field width r c) ∧
      (∀ r c, r < height → c < width → ¬ Interior height width r c →
        getBit g width r c = getBit field width r c) := by
  obtain ⟨g, e1, e2⟩ := interior_inv hv
  refine ⟨g, ?_, e2⟩
  unfold update
  simp only [wrap8_of_lt hv.height_u8, wrap8_of_lt hv.width_u8]
  rw [copyLoop_eq hv _ (by rw [List.length_replicate, hv.len])]
  exact e1

/-! ## From bits back to `bitIsAlive` -/

theorem bitIsAlive_val (f : Field) {y x width : Nat} (h8 : width % 8 = 0)
    (hy : y < 256) (hx : x < 256) (hw : width < 256)
    (hidx : y * (width / 8) + x / 8 < f.length) :
    bitIsAlive f y x width = some ((getBit f width y x).toNat * 2 ^ (x % 8)) := by
  rw [bitIsAlive_eq f h8 hy hx hw]
  unfold getBit
  rw [List.getElem?_eq_getElem hidx]
  simp [Nat.and_two_pow]

theorem update_valid {field : Field} {height width : Nat}
    (hv : ValidGrid field height width) {g : Field} (hl : g.length = field.length)
    (hb : ∀ b ∈ g, b < 256) : ValidGrid g height width :=
  ⟨hv.height_pos, hv.height_u8, hv.width_pos, hv.width_mul8, hv.width_u8,
    by rw [hl, hv.len], hb⟩

theorem interior_iff {height width row col : Nat} (hr1 : 1 ≤ row)
    (hr2 : row ≤ height - 2) (hc1 : 1 ≤ col) (hc2 : col ≤ width - 2) :
    Interior height width row col := by
  unfold Interior; omega

/-! ## The transition rule, the border and the neighbour count -/

/-- C1: in a valid grid, an interior cell that is alive is alive after `update`
if and only if it has 2 or 3 live Moore neighbours in the input grid; it is
dead after `update` when that count is below 2 or above 3. -/
theorem update_live_cell (G : Field) (height width row col : Nat)
    (hv : ValidGrid G height width) (hr1 : 1 ≤ row) (hr2 : row ≤ height - 2)
    (hc1 : 1 ≤ col) (hc2 : col ≤ width - 2) (hal : alive G row col width = true) :
    ∃ G1, update G height width = some G1 ∧
      (alive G1 row col width = true ↔
        (liveNeighbourCount G row col width = 2 ∨ liveNeighbourCount G row col width = 3)) ∧
      ((liveNeighbourCount G row col width < 2 ∨ liveNeighbourCount G row col width > 3) →
        alive G1 row col width = false) := by
  have hh := hv.height_u8
  have hw := hv.width_u8
  have hint := interior_iff hr1 hr2 hc1 hc2
  have hr : row < height := by unfold Interior at hint; omega
  have hc : col < width := by unfold Interior at hint; omega
  obtain ⟨G1, e1, _, _, e4, _⟩ := update_spec hv
  have e := e4 row col hr hc hint
  rw [alive_eq_getBit G hv.width_mul8 (by omega) (by omega) hw] at hal
  rw [nextCell, hal, rule, if_pos rfl] at e
  refine ⟨G1, e1, ?_, ?_⟩
  · rw [alive_eq_getBit G1 hv.width_mul8 (by omega) (by omega) hw, e]
    simp
  · intro hcount
    rw [alive_eq_getBit G1 hv.width_mul8 (by omega) (by omega) hw, e]
    simp only [decide_eq_false_iff_not]
    omega

/-- C2: in a valid grid, an interior cell that is dead is alive after `update`
if and only if exactly 3 of its Moore neighbours are alive in the input grid;
for every other count it is dead after `update`. -/
theorem update_dead_cell (G : Field) (height width row col : Nat)
    (hv : ValidGrid G height width) (hr1 : 1 ≤ row) (hr2 : row ≤ height - 2)
    (hc1 : 1 ≤ col) (hc2 : col ≤ width - 2) (hal : alive G row col width = false) :
    ∃ G1, update G height width = some G1 ∧
      (alive G1 row col width = true ↔ liveNeighbourCount G row col width = 3) ∧
      (liveNeighbourCount G row col width ≠ 3 → alive G1 row col width = false) := by
  have hh := hv.height_u8
  have hw := hv.width_u8
  have hint := interior_iff hr1 hr2 hc1 hc2
  have hr : row < height := by unfold Interior at hint; omega
  have hc : col < width := by unfold Interior at hint; omega
  obtain ⟨G1, e1, _, _, e4, _⟩ := update_spec hv
  have e := e4 row col hr hc hint
  rw [alive_eq_getBit G hv.width_mul8 (by omega) (by omega) hw] at hal
  rw [nextCell, hal, rule, if_neg (by simp)] at e
  refine ⟨G1, e1, ?_, ?_⟩
  · rw [alive_eq_getBit G1 hv.width_mul8 (by omega) (by omega) hw, e]
    simp
  · intro hcount
    rw [alive_eq_getBit G1 hv.width_mul8 (by omega) (by omega) hw, e]
    simp [hcount]

/-- C3: in a valid grid, for every cell of row 0, row `height-1`, column 0 or
column `width-1`, `bitIsAlive` returns on `update(G)` the value it returns on
`G`: one step leaves every border cell unchanged. -/
theorem update_border_unchanged (G : Field) (height width row col : Nat)
    (hv : ValidGrid G height width) (hr : row < height) (hc : col < width)
    (hborder : row = 0 ∨ row = height - 1 ∨ col = 0 ∨ col = width - 1) :
    ∃ G1 v, update G height width = some G1 ∧ bitIsAlive G row col width = some v ∧
      bitIsAlive G1 row col width = some v ∧
      alive G1 row col width = alive G row col width := by
  have hh := hv.height_u8
  have hw := hv.width_u8
  have h8 := hv.width_mul8
  obtain ⟨G1, e1, e2, _, _, e5⟩ := update_spec hv
  have e := e5 row col hr hc (by unfold Interior; omega)
  have hidx : row * (width / 8) + col / 8 < G.length := by
    rw [hv.length_eq]; exact index_lt h8 hr hc
  refine ⟨G1, _, e1, bitIsAlive_val G h8 (by omega) (by omega) hw hidx, ?_, ?_⟩
  · rw [bitIsAlive_val G1 h8 (by omega) (by omega) hw (by rw [e2]; exact hidx), e]
  · rw [alive_eq_getBit G1 h8 (by omega) (by omega) hw,
      alive_eq_getBit G h8 (by omega) (by omega) hw, e]

/-- C4: in a valid grid and for an interior cell, the counter
`num_live_neighbors` computed by the loops of `update` is the number of cells
alive in the input grid among the 8 Moore neighbours; the cell itself is not
one of the positions counted, the count depends on the input grid only and it
is at most 8. -/
theorem numLiveNeighbors_correct (G : Field) (height width row col : Nat)
    (hv : ValidGrid G height width) (hr1 : 1 ≤ row) (hr2 : row ≤ height - 2)
    (hc1 : 1 ≤ col) (hc2 : col ≤ width - 2) :
    ∃ n, numLiveNeighbors G row col width = some n ∧
      n = liveNeighbourCount G row col width ∧
      (row, col) ∉ mooreNeighbours row col ∧ (mooreNeighbours row col).length = 8 ∧
      n ≤ 8 := by
  refine ⟨_, numLiveNeighbors_eq hv hr1 (by omega) hc1 (by omega), rfl, ?_, rfl, ?_⟩
  · unfold mooreNeighbours
    simp only [List.mem_cons, Prod.mk.injEq, List.mem_singleton, List.not_mem_nil, or_false,
      not_or, not_and]
    omega
  · unfold liveNeighbourCount
    exact le_trans (List.length_filter_le _ _) (le_of_eq rfl)

/-- A 3 x 8 grid used to instantiate the theorems: row 0 has its first three
cells alive, row 1 has the cell of column 1 alive, row 2 is dead. -/
theorem valid_sample : ValidGrid [7, 2, 0] 3 8 :=
  ⟨by decide, by decide, by decide, by decide, by decide, by decide, by decide⟩

/-- A 3 x 8 grid whose only live cells are the first three cells of row 0. -/
theorem valid_sample_dead : ValidGrid [7, 0, 0] 3 8 :=
  ⟨by decide, by decide, by decide, by decide, by decide, by decide, by decide⟩

theorem update_live_cell_witness :
    ValidGrid [7, 2, 0] 3 8 ∧ alive [7, 2, 0] 1 1 8 = true ∧
    ∃ G1, update [7, 2, 0] 3 8 = some G1 ∧
      (alive G1 1 1 8 = true ↔
        (liveNeighbourCount [7, 2, 0] 1 1 8 = 2 ∨ liveNeighbourCount [7, 2, 0] 1 1 8 = 3)) ∧
      ((liveNeighbourCount [7, 2, 0] 1 1 8 < 2 ∨ liveNeighbourCount [7, 2, 0] 1 1 8 > 3) →
        alive G1 1 1 8 = false) :=
  ⟨valid_sample, by decide,
    update_live_cell [7, 2, 0] 3 8 1 1 valid_sample (by decide) (by decide) (by decide)
      (by decide) (by decide)⟩

theorem update_dead_cell_witness :
    ValidGrid [7, 0, 0] 3 8 ∧ alive [7, 0, 0] 1 1 8 = false ∧
    ∃ G1, update [7, 0, 0] 3 8 = some G1 ∧
      (alive G1 1 1 8 = true ↔ liveNeighbourCount [7, 0, 0] 1 1 8 = 3) ∧
      (liveNeighbourCount [7, 0, 0] 1 1 8 ≠ 3 → alive G1 1 1 8 = false) :=
  ⟨valid_sample_dead, by decide,
    update_dead_cell [7, 0, 0] 3 8 1 1 valid_sample_dead (by decide) (by decide) (by decide)
      (by decide) (by decide)⟩

theorem update_border_unchanged_witness :
    ValidGrid [7, 2, 0] 3 8 ∧
    ∃ G1 v, update [7, 2, 0] 3 8 = some G1 ∧ bitIsAlive [7, 2, 0] 0 1 8 = some v ∧
      bitIsAlive G1 0 1 8 = some v ∧ alive G1 0 1 8 = alive [7, 2, 0] 0 1 8 :=
  ⟨valid_sample,
    update_border_unchanged [7, 2, 0] 3 8 0 1 valid_sample (by decide) (by decide)
      (Or.inl rfl)⟩

theorem numLiveNeighbors_correct_witness :
    ValidGrid [7, 2, 0] 3 8 ∧
    ∃ n, numLiveNeighbors [7, 2, 0] 1 1 8 = some n ∧
      n = liveNeighbourCount [7, 2, 0] 1 1 8 ∧
      ((1 : Nat), (1 : Nat)) ∉ mooreNeighbours 1 1 ∧ (mooreNeighbours 1 1).length = 8 ∧
      n ≤ 8 :=
  ⟨valid_sample,
    numLiveNeighbors_correct [7, 2, 0] 3 8 1 1 valid_sample (by decide) (by decide)
      (by decide) (by decide)⟩

/-! ## Addressing -/

/-- C5: for a width that is a positive multiple of 8 and a column below the
width, `bitIsAlive` returns a non-zero value if and only if bit `col % 8`
(bit 0 least significant) of the byte at index `row*(width/8) + col/8` is
set. -/
theorem bitIsAlive_reads_bit (f : Field) (width row col b : Nat) (hw0 : 0 < width)
    (h8 : width % 8 = 0) (hw : width < 256) (hrow : row < 256) (hcol : col < width)
    (hb : f[row * (width / 8) + col / 8]? = some b) :
    ∃ v, bitIsAlive f row col width = some v ∧
      (v ≠ 0 ↔ b.testBit (col % 8) = true) := by
  rw [bitIsAlive_eq f h8 hrow (by omega) hw, hb]
  refine ⟨_, rfl, ?_⟩
  rw [← and_two_pow_ne_zero b (col % 8)]
  simp

theorem bitIsAlive_reads_bit_witness :
    (0 < 8) ∧ 8 % 8 = 0 ∧ ([7, 2, 0] : Field)[1 * (8 / 8) + 1 / 8]? = some 2 ∧
    ∃ v, bitIsAlive [7, 2, 0] 1 1 8 = some v ∧ (v ≠ 0 ↔ (2 : Nat).testBit (1 % 8) = true) :=
  ⟨by decide, by decide, by decide,
    bitIsAlive_reads_bit [7, 2, 0] 8 1 1 2 (by decide) (by decide) (by decide) (by decide)
      (by decide) (by decide)⟩

/-- C6: for a height of at least 1 and a width that is a positive multiple of
8, the map from a cell `(row, col)` to the pair (byte index
`row*width/8 + col/8`, bit offset `col % 8`) is injective on
`[0,height) x [0,width)`: no two distinct cells share a bit. -/
theorem addressing_injective (height width r1 c1 r2 c2 : Nat) (_hh : 1 ≤ height)
    (_hw0 : 0 < width) (h8 : width % 8 = 0) (_hr1 : r1 < height) (hc1 : c1 < width)
    (_hr2 : r2 < height) (hc2 : c2 < width)
    (heq : (byteIndex r1 c1 width, cellOffset c1) = (byteIndex r2 c2 width, cellOffset c2)) :
    (r1, c1) = (r2, c2) := by
  simp only [Prod.mk.injEq, byteIndex_eq h8, cellOffset] at heq
  obtain ⟨hr, hc⟩ := addr_inj h8 hc1 hc2 heq.1
  have := heq.2
  simp only [Prod.mk.injEq]
  omega

theorem addressing_injective_witness :
    (1 ≤ 3) ∧ (0 < 16) ∧ 16 % 8 = 0 ∧ (byteIndex 2 9 16, cellOffset 9) = (5, 1) ∧
    ((2 : Nat), (9 : Nat)) = (2, 9) :=
  ⟨by decide, by decide, by decide, by decide,
    addressing_injective 3 16 2 9 2 9 (by decide) (by decide) (by decide) (by decide)
      (by decide) (by decide) (by decide) rfl⟩

/-! ## Memory safety and dimensions -/

/-- C7: on a valid grid no buffer access of `update` is out of bounds: the
index of the copy loop, the index read by `bitIsAlive` at the cell or at any
of the 9 positions around an interior cell and the index of the cell update
are all below `height*width/8`, and `update`, which aborts on the first
out-of-bounds access, returns a buffer. -/
theorem update_in_bounds (G : Field) (height width : Nat) (hv : ValidGrid G height width) :
    (∃ G1, update G height width = some G1) ∧
    (∀ i j, i < height → j < width / 8 → cto1 i j (width / 8) < height * width / 8) ∧
    (∀ i j y x, Interior height width i j → i - 1 ≤ y → y ≤ i + 1 → j - 1 ≤ x → x ≤ j + 1 →
      wrap32 (byteIndex (wrap8 y) (wrap8 x) (wrap8 width)) < height * width / 8 ∧
      ∃ v, bitIsAlive G y x width = some v) ∧
    (∀ i j, Interior height width i j →
      wrap32 (wrapSize (wrapSize (i * width) / 8 + j / 8)) < height * width / 8) := by
  have hh := hv.height_u8
  have hw := hv.width_u8
  have h8 := hv.width_mul8
  obtain ⟨G1, e1, _⟩ := update_spec hv
  refine ⟨⟨G1, e1⟩, ?_, ?_, ?_⟩
  · intro i j hi hj
    rw [cto1_eq (by omega) (by omega) (by omega), mul_width_div h8]
    have h1 : (i + 1) * (width / 8) ≤ height * (width / 8) := Nat.mul_le_mul_right _ hi
    rw [Nat.succ_mul] at h1
    omega
  · intro i j y x hint h1 h2 h3 h4
    unfold Interior at hint
    have hy : y < height := by omega
    have hx : x < width := by omega
    refine ⟨?_, hv.bitIsAlive_some hy hx⟩
    rw [wrap8_of_lt (show y < 256 by omega), wrap8_of_lt (show x < 256 by omega),
      wrap8_of_lt hw, wrap32_of_lt (by
        have := byteIndex_lt h8 (show y < 256 by omega) (show x < 256 by omega) hw
        omega),
      byteIndex_eq h8, mul_width_div h8]
    exact index_lt h8 hy hx
  · intro i j hint
    unfold Interior at hint
    rw [cellIndex_eq h8 hh hw (show i < height by omega) (show j < width by omega),
      mul_width_div h8]
    exact index_lt h8 (by omega) (by omega)

theorem update_in_bounds_witness :
    ValidGrid [7, 2, 0] 3 8 ∧
    ((∃ G1, update [7, 2, 0] 3 8 = some G1) ∧
    (∀ i j, i < 3 → j < 8 / 8 → cto1 i j (8 / 8) < 3 * 8 / 8) ∧
    (∀ i j y x, Interior 3 8 i j → i - 1 ≤ y → y ≤ i + 1 → j - 1 ≤ x → x ≤ j + 1 →
      wrap32 (byteIndex (wrap8 y) (wrap8 x) (wrap8 8)) < 3 * 8 / 8 ∧
      ∃ v, bitIsAlive [7, 2, 0] y x 8 = some v) ∧
    (∀ i j, Interior 3 8 i j →
      wrap32 (wrapSize (wrapSize (i * 8) / 8 + j / 8)) < 3 * 8 / 8)) :=
  ⟨valid_sample, update_in_bounds [7, 2, 0] 3 8 valid_sample⟩

/-- C8: on a valid grid of dimensions `height` x `width`, `update` returns a
valid grid of the same dimensions: its buffer has `height*width/8` bytes, the
length of the input buffer. -/
theorem update_preserves_dimensions (G : Field) (height width : Nat)
    (hv : ValidGrid G height width) :
    ∃ G1, update G height width = some G1 ∧ G1.length = height * width / 8 ∧
      G1.length = G.length ∧ ValidGrid G1 height width := by
  obtain ⟨G1, e1, e2, e3, _⟩ := update_spec hv
  exact ⟨G1, e1, by rw [e2, hv.len], e2, update_valid hv e2 e3⟩

theorem update_preserves_dimensions_witness :
    ValidGrid [7, 2, 0] 3 8 ∧
    ∃ G1, update [7, 2, 0] 3 8 = some G1 ∧ G1.length = 3 * 8 / 8 ∧
      G1.length = ([7, 2, 0] : Field).length ∧ ValidGrid G1 3 8 :=
  ⟨valid_sample, update_preserves_dimensions [7, 2, 0] 3 8 valid_sample⟩

/-! ## Reads outside the grid -/

/-- C9 fails as stated: in the valid 2 x 8 grid `[0, 1]` the read at row 0,
column 8 (a column equal to the width) does not fail; it returns the value 1,
the state of the cell `(1, 0)`. -/
theorem bitIsAlive_column_overrun :
    ValidGrid [0, 1] 2 8 ∧ (2 ≤ 0 ∨ 8 ≤ 8) ∧ bitIsAlive [0, 1] 0 8 8 ≠ none ∧
    bitIsAlive [0, 1] 0 8 8 = some 1 ∧ bitIsAlive [0, 1] 1 0 8 = some 1 :=
  ⟨⟨by decide, by decide, by decide, by decide, by decide, by decide, by decide⟩,
    by decide, by decide, by decide, by decide⟩

theorem toNat_mul_two_pow_ne_zero (t : Bool) (k : Nat) :
    t.toNat * 2 ^ k ≠ 0 ↔ t = true := by
  have hp : 0 < 2 ^ k := Nat.two_pow_pos k
  cases t
  · simp
  · simp only [Bool.toNat_true, Nat.one_mul, iff_true]
    omega

/-- C9, amended: `bitIsAlive` checks no bound.  On a valid grid and for
coordinates in `uint8_t` range, the read is outside the buffer exactly when
`row*width/8 + col/8 >= height*width/8`; this is the case whenever
`row >= height`; for `row < height` and `col < width` it returns the value of
the cell, its bit shifted to position `col % 8`, non-zero exactly when the bit
of the cell is set; and for `col >= width` with `row + col/width < height` it
returns what it returns for the cell `(row + col/width, col % width)`, the
value of that cell. -/
theorem bitIsAlive_bounds (G : Field) (height width row col : Nat)
    (hv : ValidGrid G height width) (hrow : row < 256) (hcol : col < 256) :
    (bitIsAlive G row col width = none ↔
      height * width / 8 ≤ row * width / 8 + col / 8) ∧
    (height ≤ row → bitIsAlive G row col width = none) ∧
    (row < height → col < width →
      ∃ v, bitIsAlive G row col width = some v ∧
        v = (getBit G width row col).toNat * 2 ^ (col % 8) ∧
        (v ≠ 0 ↔ getBit G width row col = true)) ∧
    (width ≤ col → row + col / width < height →
      ∃ v, bitIsAlive G row col width = some v ∧
        bitIsAlive G (row + col / width) (col % width) width = some v ∧
        v = (getBit G width (row + col / width) (col % width)).toNat * 2 ^ (col % 8) ∧
        (v ≠ 0 ↔ getBit G width (row + col / width) (col % width) = true)) := by
  have hh := hv.height_u8
  have hw := hv.width_u8
  have hw0 := hv.width_pos
  have h8 := hv.width_mul8
  have hnone : bitIsAlive G row col width = none ↔
      height * width / 8 ≤ row * width / 8 + col / 8 := by
    rw [bitIsAlive_eq G h8 hrow hcol hw, mul_width_div h8, mul_width_div h8,
      ← hv.length_eq]
    simp
  refine ⟨hnone, ?_, ?_, ?_⟩
  · intro hge
    rw [hnone, mul_width_div h8, mul_width_div h8]
    have : height * (width / 8) ≤ row * (width / 8) := Nat.mul_le_mul_right _ hge
    omega
  · intro hr hc
    have hidx : row * (width / 8) + col / 8 < G.length := by
      rw [hv.length_eq]; exact index_lt h8 hr hc
    exact ⟨_, bitIsAlive_val G h8 hrow hcol hw hidx, rfl, toNat_mul_two_pow_ne_zero _ _⟩
  · intro hge hlt
    have hmod : col % width < width := Nat.mod_lt _ hw0
    have hdm := Nat.div_add_mod col width
    have hdm8 := Nat.div_add_mod width 8
    have hidx : (row + col / width) * (width / 8) + col % width / 8 =
        row * (width / 8) + col / 8 := by
      rw [Nat.add_mul]
      have e : col / 8 = col / width * (width / 8) + col % width / 8 := by
        have hc : col = (col / width * (width / 8)) * 8 + col % width := by
          have e1 : col / width * (width / 8) * 8 = width * (col / width) := by
            rw [Nat.mul_assoc, Nat.mul_comm (col / width)]
            congr 1
            omega
          omega
        omega
      omega
    have hoff : col % width % 8 = col % 8 :=
      Nat.mod_mod_of_dvd col (Nat.dvd_of_mod_eq_zero h8)
    have hin : (row + col / width) * (width / 8) + col % width / 8 < G.length := by
      rw [hv.length_eq]; exact index_lt h8 hlt hmod
    have hcell := bitIsAlive_val G h8 (show row + col / width < 256 by omega)
      (show col % width < 256 by omega) hw hin
    rw [hoff] at hcell
    refine ⟨_, ?_, hcell, rfl, toNat_mul_two_pow_ne_zero _ _⟩
    rw [← hcell, bitIsAlive_eq G h8 hrow hcol hw,
      bitIsAlive_eq G h8 (by omega) (by omega) hw, hidx, hoff]

theorem bitIsAlive_bounds_witness :
    ValidGrid [0, 1] 2 8 ∧
    ((bitIsAlive [0, 1] 0 8 8 = none ↔ 2 * 8 / 8 ≤ 0 * 8 / 8 + 8 / 8) ∧
    (2 ≤ 0 → bitIsAlive [0, 1] 0 8 8 = none) ∧
    (0 < 2 → 8 < 8 →
      ∃ v, bitIsAlive [0, 1] 0 8 8 = some v ∧
        v = (getBit [0, 1] 8 0 8).toNat * 2 ^ (8 % 8) ∧
        (v ≠ 0 ↔ getBit [0, 1] 8 0 8 = true)) ∧
    (8 ≤ 8 → 0 + 8 / 8 < 2 →
      ∃ v, bitIsAlive [0, 1] 0 8 8 = some v ∧
        bitIsAlive [0, 1] (0 + 8 / 8) (8 % 8) 8 = some v ∧
        v = (getBit [0, 1] 8 (0 + 8 / 8) (8 % 8)).toNat * 2 ^ (8 % 8) ∧
        (v ≠ 0 ↔ getBit [0, 1] 8 (0 + 8 / 8) (8 % 8) = true))) :=
  ⟨⟨by decide, by decide, by decide, by decide, by decide, by decide, by decide⟩,
    bitIsAlive_bounds [0, 1] 2 8 0 8
      ⟨by decide, by decide, by decide, by decide, by decide, by decide, by decide⟩
      (by decide) (by decide)⟩

/-! ## Grids given by a pattern -/

/-- Two buffers of a `height` x `width` grid that hold bytes and agree on
every cell are equal. -/
theorem field_ext {height width : Nat} (h8 : width % 8 = 0) (g1 g2 : Field)
    (hl1 : g1.length = height * (width / 8)) (hl2 : g2.length = height * (width / 8))
    (hb1 : ∀ b ∈ g1, b < 256) (hb2 : ∀ b ∈ g2, b < 256)
    (hbits : ∀ r c, r < height → c < width → getBit g1 width r c = getBit g2 width r c) :
    g1 = g2 := by
  refine List.ext_getElem (by rw [hl1, hl2]) ?_
  intro k hk1 hk2
  refine Nat.eq_of_testBit_eq ?_
  intro m
  by_cases hm : m < 8
  · have hkpos : 0 < width / 8 := by
      rcases Nat.eq_zero_or_pos (width / 8) with h0 | h0
      · rw [hl1, h0, Nat.mul_zero] at hk1; omega
      · exact h0
    have hr : k / (width / 8) < height := by
      apply Nat.div_lt_of_lt_mul
      rw [Nat.mul_comm]; rw [hl1] at hk1; exact hk1
    have hmod : k % (width / 8) < width / 8 := Nat.mod_lt _ hkpos
    have hc : 8 * (k % (width / 8)) + m < width := by omega
    have hidx : k / (width / 8) * (width / 8) + (8 * (k % (width / 8)) + m) / 8 = k := by
      have h1 := Nat.div_add_mod k (width / 8)
      rw [Nat.mul_comm] at h1
      omega
    have hoff : (8 * (k % (width / 8)) + m) % 8 = m := by omega
    have h := hbits (k / (width / 8)) (8 * (k % (width / 8)) + m) hr hc
    unfold getBit at h
    rw [hidx, hoff, List.getElem?_eq_getElem hk1, List.getElem?_eq_getElem hk2] at h
    exact h
  · have hp : 2 ^ 8 ≤ 2 ^ m := Nat.pow_le_pow_right (by decide) (by omega)
    have e1 : g1[k] < 2 ^ m :=
      Nat.lt_of_lt_of_le (hb1 _ (List.getElem_mem hk1)) hp
    have e2 : g2[k] < 2 ^ m :=
      Nat.lt_of_lt_of_le (hb2 _ (List.getElem_mem hk2)) hp
    rw [Nat.testBit_lt_two_pow e1, Nat.testBit_lt_two_pow e2]

/-- In a grid whose cells are given by the pattern `P`, the live neighbours of
an interior cell are its neighbours in the pattern. -/
theorem liveNeighbourCount_pattern {f : Field} {height width : Nat}
    (hv : ValidGrid f height width) (P : Nat → Nat → Bool)
    (hP : ∀ r c, r < height → c < width → getBit f width r c = P r c)
    {r c : Nat} (hint : Interior height width r c) :
    liveNeighbourCount f r c width = patternCount P r c := by
  have hh := hv.height_u8
  have hw := hv.width_u8
  unfold Interior at hint
  unfold liveNeighbourCount patternCount
  refine congrArg List.length (List.filter_congr ?_)
  intro p hp
  have hb : p.1 < height ∧ p.2 < width := by
    simp only [mooreNeighbours, List.mem_cons, List.mem_singleton, List.not_mem_nil,
      or_false] at hp
    rcases hp with h | h | h | h | h | h | h | h <;> rw [h] <;> constructor <;>
      simp only <;> omega
  rw [alive_eq_getBit f hv.width_mul8 (by omega) (by omega) hw]
  exact hP p.1 p.2 hb.1 hb.2

/-- One step on a grid given by a pattern `P`: when the rule turns `P` into
`Q` at the interior cells and `P` and `Q` agree elsewhere, `update` returns
the grid given by `Q`. -/
theorem update_pattern {f : Field} {height width : Nat} (hv : ValidGrid f height width)
    (P Q : Nat → Nat → Bool)
    (hP : ∀ r c, r < height → c < width → getBit f width r c = P r c)
    (hrule : ∀ r c, 1 ≤ r → 1 ≤ c → rule (P r c) (patternCount P r c) = Q r c)
    (hborder : ∀ r c, r < height → c < width → ¬ Interior height width r c →
      P r c = Q r c) :
    ∃ g, update f height width = some g ∧ ValidGrid g height width ∧
      ∀ r c, r < height → c < width → getBit g width r c = Q r c := by
  obtain ⟨g, e1, e2, e3, e4, e5⟩ := update_spec hv
  refine ⟨g, e1, update_valid hv e2 e3, ?_⟩
  intro r c hr hc
  by_cases hint : Interior height width r c
  · rw [e4 r c hr hc hint, nextCell, hP r c hr hc, liveNeighbourCount_pattern hv P hP hint]
    exact hrule r c hint.1 hint.2.2.1
  · rw [e5 r c hr hc hint, hP r c hr hc]
    exact hborder r c hr hc hint

/-! ## The blinker -/

theorem toNat_decide_pos (p : Prop) [Decidable p] (h : p) : (decide p).toNat = 1 := by
  simp [h]

theorem toNat_decide_neg (p : Prop) [Decidable p] (h : ¬ p) : (decide p).toNat = 0 := by
  simp [h]

theorem rule_eq_decide (a : Bool) (n : Nat) (q : Prop) [Decidable q]
    (h : (a = true → ((n = 2 ∨ n = 3) ↔ q)) ∧ (a = false → (n = 3 ↔ q))) :
    rule a n = decide q := by
  unfold rule
  cases a
  · simp only [Bool.false_eq_true, if_false]
    exact decide_eq_decide.2 (h.2 rfl)
  · simp only [if_true]
    exact decide_eq_decide.2 (h.1 rfl)

/-- The rule turns the horizontal blinker into the vertical one. -/
theorem blinker_h_to_v (i j r c : Nat) (hr : 1 ≤ r) (hc : 1 ≤ c) :
    rule (inBlinker i j r c) (patternCount (inBlinker i j) r c) = inBlinkerV i j r c := by
  obtain ⟨a, rfl⟩ : ∃ a, r = a + 1 := ⟨r - 1, by omega⟩
  obtain ⟨b, rfl⟩ : ∃ b, c = b + 1 := ⟨c - 1, by omega⟩
  unfold inBlinkerV patternCount
  apply rule_eq_decide
  simp only [mooreNeighbours, length_filter_cons, List.filter_nil, List.length_nil, inBlinker,
    Nat.add_sub_cancel, decide_eq_true_eq, decide_eq_false_iff_not]
  have hrow : (i < a ∨ a + 2 < i) ∨ i = a ∨ i = a + 1 ∨ i = a + 2 := by omega
  have hcol : (j + 1 < b ∨ b + 3 < j) ∨ j + 1 = b ∨ j = b ∨ j = b + 1 ∨ j = b + 2 ∨
      j = b + 3 := by omega
  rcases hrow with h1 | h1 | h1 | h1 <;>
  rcases hcol with h2 | h2 | h2 | h2 | h2 | h2 <;>
  simp (disch := omega) only [toNat_decide_pos, toNat_decide_neg] <;>
  first | omega | (simp only [true_or, or_true, true_iff]; omega)

/-- The rule turns the vertical blinker into the horizontal one. -/
theorem blinker_v_to_h (i j r c : Nat) (hr : 1 ≤ r) (hc : 1 ≤ c) :
    rule (inBlinkerV i j r c) (patternCount (inBlinkerV i j) r c) = inBlinker i j r c := by
  obtain ⟨a, rfl⟩ : ∃ a, r = a + 1 := ⟨r - 1, by omega⟩
  obtain ⟨b, rfl⟩ : ∃ b, c = b + 1 := ⟨c - 1, by omega⟩
  unfold inBlinker patternCount
  apply rule_eq_decide
  simp only [mooreNeighbours, length_filter_cons, List.filter_nil, List.length_nil, inBlinkerV,
    Nat.add_sub_cancel, decide_eq_true_eq, decide_eq_false_iff_not]
  have hcol : (j < b ∨ b + 2 < j) ∨ j = b ∨ j = b + 1 ∨ j = b + 2 := by omega
  have hrow : (i + 1 < a ∨ a + 3 < i) ∨ i + 1 = a ∨ i = a ∨ i = a + 1 ∨ i = a + 2 ∨
      i = a + 3 := by omega
  rcases hcol with h1 | h1 | h1 | h1 <;>
  rcases hrow with h2 | h2 | h2 | h2 | h2 | h2 <;>
  simp (disch := omega) only [toNat_decide_pos, toNat_decide_neg] <;>
  first | omega | (simp only [true_or, or_true, true_iff]; omega)

/-- One step on the horizontal blinker, fully interior with room above and
below, gives the vertical blinker. -/
theorem blinker_step_h {f : Field} {height width i j : Nat} (hv : ValidGrid f height width)
    (hi : 2 ≤ i) (hi2 : i + 3 ≤ height) (hj : 2 ≤ j) (hj2 : j + 3 ≤ width)
    (hP : ∀ r c, r < height → c < width → getBit f width r c = inBlinker i j r c) :
    ∃ g, update f height width = some g ∧ ValidGrid g height width ∧
      ∀ r c, r < height → c < width → getBit g width r c = inBlinkerV i j r c := by
  refine update_pattern hv (inBlinker i j) (inBlinkerV i j) hP
    (fun r c hr hc => blinker_h_to_v i j r c hr hc) ?_
  intro r c hr hc hint
  unfold Interior at hint
  unfold inBlinker inBlinkerV
  refine decide_eq_decide.2 ⟨fun h => ?_, fun h => ?_⟩ <;> omega

/-- One step on the vertical blinker, fully interior with room on both sides,
gives the horizontal blinker. -/
theorem blinker_step_v {f : Field} {height width i j : Nat} (hv : ValidGrid f height width)
    (hi : 2 ≤ i) (hi2 : i + 3 ≤ height) (hj : 2 ≤ j) (hj2 : j + 3 ≤ width)
    (hP : ∀ r c, r < height → c < width → getBit f width r c = inBlinkerV i j r c) :
    ∃ g, update f height width = some g ∧ ValidGrid g height width ∧
      ∀ r c, r < height → c < width → getBit g width r c = inBlinker i j r c := by
  refine update_pattern hv (inBlinkerV i j) (inBlinker i j) hP
    (fun r c hr hc => blinker_v_to_h i j r c hr hc) ?_
  intro r c hr hc hint
  unfold Interior at hint
  unfold inBlinker inBlinkerV
  refine decide_eq_decide.2 ⟨fun h => ?_, fun h => ?_⟩ <;> omega

/-- A grid whose only live cells are `(i, j-1)`, `(i, j)`, `(i, j+1)` is the
grid given by the pattern `inBlinker i j`. -/
theorem getBit_of_blinker {G : Field} {height width i j : Nat}
    (hv : ValidGrid G height width) (hj : 2 ≤ j)
    (hG : ∀ r, r < height → ∀ c, c < width →
      (alive G r c width = true ↔ (r = i ∧ (c = j - 1 ∨ c = j ∨ c = j + 1)))) :
    ∀ r c, r < height → c < width → getBit G width r c = inBlinker i j r c := by
  intro r c hr hc
  have hh := hv.height_u8
  have hw := hv.width_u8
  have h := hG r hr c hc
  rw [alive_eq_getBit G hv.width_mul8 (by omega) (by omega) hw] at h
  unfold inBlinker
  rw [Bool.eq_iff_iff, h, decide_eq_true_eq]
  omega

/-- C10: blinker round trip.  In a valid grid whose only live cells are
`(i, j-1)`, `(i, j)`, `(i, j+1)` with `2 <= i <= height-3` and
`2 <= j <= width-3`, two successive calls of `update` return the input
buffer, byte for byte. -/
theorem blinker_round_trip (G : Field) (height width i j : Nat)
    (hv : ValidGrid G height width) (hi : 2 ≤ i) (hi2 : i ≤ height - 3)
    (hj : 2 ≤ j) (hj2 : j ≤ width - 3)
    (hG : ∀ r, r < height → ∀ c, c < width →
      (alive G r c width = true ↔ (r = i ∧ (c = j - 1 ∨ c = j ∨ c = j + 1)))) :
    ∃ G1 G2, update G height width = some G1 ∧ update G1 height width = some G2 ∧
      G2 = G := by
  have hP := getBit_of_blinker hv hj hG
  obtain ⟨G1, e1, hv1, hP1⟩ := blinker_step_h hv hi (by omega) hj (by omega) hP
  obtain ⟨G2, e2, hv2, hP2⟩ := blinker_step_v hv1 hi (by omega) hj (by omega) hP1
  refine ⟨G1, G2, e1, e2, ?_⟩
  refine field_ext hv.width_mul8 G2 G hv2.length_eq hv.length_eq hv2.bytes hv.bytes ?_
  intro r c hr hc
  rw [hP2 r c hr hc, hP r c hr hc]

theorem blinker_round_trip_witness :
    ValidGrid [0, 0, 28, 0, 0] 5 8 ∧
    (∀ r, r < 5 → ∀ c, c < 8 →
      (alive [0, 0, 28, 0, 0] r c 8 = true ↔ (r = 2 ∧ (c = 3 - 1 ∨ c = 3 ∨ c = 3 + 1)))) ∧
    ∃ G1 G2, update [0, 0, 28, 0, 0] 5 8 = some G1 ∧ update G1 5 8 = some G2 ∧
      G2 = [0, 0, 28, 0, 0] :=
  ⟨⟨by decide, by decide, by decide, by decide, by decide, by decide, by decide⟩,
    by decide,
    blinker_round_trip [0, 0, 28, 0, 0] 5 8 2 3
      ⟨by decide, by decide, by decide, by decide, by decide, by decide, by decide⟩
      (by decide) (by decide) (by decide) (by decide) (by decide)⟩

/-- C11: blinker single step.  In a valid grid whose only live cells are the
horizontal triple `(i, j-1)`, `(i, j)`, `(i, j+1)` with `2 <= i <= height-3`
and `2 <= j <= width-3`, `update` returns a valid grid whose only live cells
are the vertical triple `(i-1, j)`, `(i, j)`, `(i+1, j)`. -/
theorem blinker_single_step (G : Field) (height width i j : Nat)
    (hv : ValidGrid G height width) (hi : 2 ≤ i) (hi2 : i ≤ height - 3)
    (hj : 2 ≤ j) (hj2 : j ≤ width - 3)
    (hG : ∀ r, r < height → ∀ c, c < width →
      (alive G r c width = true ↔ (r = i ∧ (c = j - 1 ∨ c = j ∨ c = j + 1)))) :
    ∃ G1, update G height width = some G1 ∧ ValidGrid G1 height width ∧
      ∀ r, r < height → ∀ c, c < width →
        (alive G1 r c width = true ↔ (c = j ∧ (r = i - 1 ∨ r = i ∨ r = i + 1))) := by
  have hh := hv.height_u8
  have hw := hv.width_u8
  have hP := getBit_of_blinker hv hj hG
  obtain ⟨G1, e1, hv1, hP1⟩ := blinker_step_h hv hi (by omega) hj (by omega) hP
  refine ⟨G1, e1, hv1, ?_⟩
  intro r hr c hc
  rw [alive_eq_getBit G1 hv.width_mul8 (by omega) (by omega) hw, hP1 r c hr hc]
  unfold inBlinkerV
  rw [decide_eq_true_eq]
  omega

theorem blinker_single_step_witness :
    ValidGrid [0, 0, 28, 0, 0] 5 8 ∧
    (∀ r, r < 5 → ∀ c, c < 8 →
      (alive [0, 0, 28, 0, 0] r c 8 = true ↔ (r = 2 ∧ (c = 3 - 1 ∨ c = 3 ∨ c = 3 + 1)))) ∧
    ∃ G1, update [0, 0, 28, 0, 0] 5 8 = some G1 ∧ ValidGrid G1 5 8 ∧
      ∀ r, r < 5 → ∀ c, c < 8 →
        (alive G1 r c 8 = true ↔ (c = 3 ∧ (r = 2 - 1 ∨ r = 2 ∨ r = 2 + 1))) :=
  ⟨⟨by decide, by decide, by decide, by decide, by decide, by decide, by decide⟩,
    by decide,
    blinker_single_step [0, 0, 28, 0, 0] 5 8 2 3
      ⟨by decide, by decide, by decide, by decide, by decide, by decide, by decide⟩
      (by decide) (by decide) (by decide) (by decide) (by decide)⟩

/-! ## Still lifes and dead grids -/

/-- A grid whose live cells are those of the pattern `P`, as seen through
`bitIsAlive`, is the grid given by `P`. -/
theorem getBit_of_alive {G : Field} {height width : Nat} (hv : ValidGrid G height width)
    (P : Nat → Nat → Bool)
    (hG : ∀ r, r < height → ∀ c, c < width → alive G r c width = P r c) :
    ∀ r c, r < height → c < width → getBit G width r c = P r c := by
  intro r c hr hc
  have hh := hv.height_u8
  have hw := hv.width_u8
  rw [← alive_eq_getBit G hv.width_mul8 (by omega) (by omega) hw]
  exact hG r hr c hc

/-- When the rule turns the pattern `P` of a valid grid `f` into the pattern
`Q` of a valid grid `g` of the same dimensions, `update` returns `g`. -/
theorem update_eq_of_pattern {f g : Field} {height width : Nat}
    (hv : ValidGrid f height width) (hg : ValidGrid g height width)
    (P Q : Nat → Nat → Bool)
    (hP : ∀ r c, r < height → c < width → getBit f width r c = P r c)
    (hQ : ∀ r c, r < height → c < width → getBit g width r c = Q r c)
    (hrule : ∀ r c, 1 ≤ r → 1 ≤ c → rule (P r c) (patternCount P r c) = Q r c)
    (hborder : ∀ r c, r < height → c < width → ¬ Interior height width r c →
      P r c = Q r c) :
    update f height width = some g := by
  obtain ⟨g1, e1, hv1, hQ1⟩ := update_pattern hv P Q hP hrule hborder
  rw [e1]
  refine congrArg some ?_
  refine field_ext hv.width_mul8 g1 g hv1.length_eq hg.length_eq hv1.bytes hg.bytes ?_
  intro r c hr hc
  rw [hQ1 r c hr hc, hQ r c hr hc]

theorem valid_replicate {height width : Nat} (hd : ValidDims height width) :
    ValidGrid (List.replicate (height * width / 8) 0) height width := by
  obtain ⟨h1, h2, h3, h4, h5⟩ := hd
  refine ⟨h1, h2, h3, h4, h5, List.length_replicate _ _, ?_⟩
  intro b hb
  rw [List.eq_of_mem_replicate hb]
  decide

theorem getBit_replicate (n width r c : Nat) :
    getBit (List.replicate n 0) width r c = false := by
  unfold getBit
  cases h : (List.replicate n 0)[r * (width / 8) + c / 8]? with
  | none => rfl
  | some b =>
    have hb : b ∈ List.replicate n 0 := List.getElem?_mem h
    rw [List.eq_of_mem_replicate hb]
    simp

/-- Among dead neighbours a dead cell stays dead. -/
theorem rule_dead (r c : Nat) :
    rule ((fun _ _ => false) r c) (patternCount (fun _ _ => false) r c) = false := by
  unfold rule patternCount
  simp [mooreNeighbours]

/-- C14: for every valid pair of dimensions, `update` applied to the all-zero
grid returns the all-zero grid of the same dimensions. -/
theorem update_zero_grid (height width : Nat) (hd : ValidDims height width) :
    update (List.replicate (height * width / 8) 0) height width =
      some (List.replicate (height * width / 8) 0) :=
  update_eq_of_pattern (valid_replicate hd) (valid_replicate hd)
    (fun _ _ => false) (fun _ _ => false)
    (fun r c _ _ => getBit_replicate _ width r c)
    (fun r c _ _ => getBit_replicate _ width r c)
    (fun r c _ _ => rule_dead r c) (fun _ _ _ _ _ => rfl)

theorem update_zero_grid_witness :
    ValidDims 10 16 ∧
    update (List.replicate (10 * 16 / 8) 0) 10 16 = some (List.replicate (10 * 16 / 8) 0) :=
  ⟨by unfold ValidDims; decide,
    update_zero_grid 10 16 (by unfold ValidDims; decide)⟩

/-- The rule leaves the 2 x 2 block as it is. -/
theorem block_stable (r0 c0 r c : Nat) (hr : 1 ≤ r) (hc : 1 ≤ c) :
    rule (inBlock r0 c0 r c) (patternCount (inBlock r0 c0) r c) = inBlock r0 c0 r c := by
  obtain ⟨a, rfl⟩ : ∃ a, r = a + 1 := ⟨r - 1, by omega⟩
  obtain ⟨b, rfl⟩ : ∃ b, c = b + 1 := ⟨c - 1, by omega⟩
  rw [show inBlock r0 c0 (a + 1) (b + 1) =
    decide ((a + 1 = r0 ∨ a + 1 = r0 + 1) ∧ (b + 1 = c0 ∨ b + 1 = c0 + 1)) from rfl]
  unfold patternCount
  apply rule_eq_decide
  simp only [mooreNeighbours, length_filter_cons, List.filter_nil, List.length_nil, inBlock,
    Nat.add_sub_cancel, decide_eq_true_eq, decide_eq_false_iff_not]
  have hrow : (r0 + 1 < a ∨ a + 2 < r0) ∨ r0 + 1 = a ∨ r0 = a ∨ r0 = a + 1 ∨ r0 = a + 2 := by
    omega
  have hcol : (c0 + 1 < b ∨ b + 2 < c0) ∨ c0 + 1 = b ∨ c0 = b ∨ c0 = b + 1 ∨ c0 = b + 2 := by
    omega
  rcases hrow with h1 | h1 | h1 | h1 | h1 <;>
  rcases hcol with h2 | h2 | h2 | h2 | h2 <;>
  simp (disch := omega) only [toNat_decide_pos, toNat_decide_neg] <;>
  first | omega | (simp only [true_or, or_true, true_iff]; omega)

/-- C12: the block still life is a fixed point.  In a valid grid whose only
live cells are the 2 x 2 square `(r0, c0)`, `(r0, c0+1)`, `(r0+1, c0)`,
`(r0+1, c0+1)` of interior cells, `update` returns the input buffer, byte for
byte. -/
theorem block_fixed_point (G : Field) (height width r0 c0 : Nat)
    (hv : ValidGrid G height width) (_hr1 : 1 ≤ r0) (_hr2 : r0 + 1 ≤ height - 2)
    (_hc1 : 1 ≤ c0) (_hc2 : c0 + 1 ≤ width - 2)
    (hG : ∀ r, r < height → ∀ c, c < width →
      (alive G r c width = true ↔ ((r = r0 ∨ r = r0 + 1) ∧ (c = c0 ∨ c = c0 + 1)))) :
    update G height width = some G := by
  have hP : ∀ r c, r < height → c < width → getBit G width r c = inBlock r0 c0 r c := by
    refine getBit_of_alive hv (inBlock r0 c0) ?_
    intro r hr c hc
    unfold inBlock
    rw [Bool.eq_iff_iff, hG r hr c hc, decide_eq_true_eq]
  exact update_eq_of_pattern hv hv (inBlock r0 c0) (inBlock r0 c0) hP hP
    (fun r c hr hc => block_stable r0 c0 r c hr hc) (fun _ _ _ _ _ => rfl)

/-- The 10 x 16 grid of the specification whose only live cells are the block
`(5,5)`, `(5,6)`, `(6,5)`, `(6,6)`. -/
theorem valid_block :
    ValidGrid [0, 0, 0, 0, 0, 0, 0, 0, 0, 0, 96, 0, 96, 0, 0, 0, 0, 0, 0, 0] 10 16 :=
  ⟨by decide, by decide, by decide, by decide, by decide, by decide, by decide⟩

theorem block_fixed_point_witness :
    ValidGrid [0, 0, 0, 0, 0, 0, 0, 0, 0, 0, 96, 0, 96, 0, 0, 0, 0, 0, 0, 0] 10 16 ∧
    (∀ r, r < 10 → ∀ c, c < 16 →
      (alive [0, 0, 0, 0, 0, 0, 0, 0, 0, 0, 96, 0, 96, 0, 0, 0, 0, 0, 0, 0] r c 16 = true ↔
        ((r = 5 ∨ r = 5 + 1) ∧ (c = 5 ∨ c = 5 + 1)))) ∧
    update [0, 0, 0, 0, 0, 0, 0, 0, 0, 0, 96, 0, 96, 0, 0, 0, 0, 0, 0, 0] 10 16 =
      some [0, 0, 0, 0, 0, 0, 0, 0, 0, 0, 96, 0, 96, 0, 0, 0, 0, 0, 0, 0] :=
  ⟨valid_block, by decide,
    block_fixed_point [0, 0, 0, 0, 0, 0, 0, 0, 0, 0, 96, 0, 96, 0, 0, 0, 0, 0, 0, 0] 10 16 5 5
      valid_block (by decide) (by decide) (by decide) (by decide) (by decide)⟩

theorem rule_eq_false (a : Bool) (n : Nat)
    (h : (a = true → n ≠ 2 ∧ n ≠ 3) ∧ (a = false → n ≠ 3)) : rule a n = false := by
  unfold rule
  cases a
  · simp only [Bool.false_eq_true, if_false, decide_eq_false_iff_not]
    exact h.2 rfl
  · simp only [if_true, decide_eq_false_iff_not]
    have := h.1 rfl
    omega

/-- The rule kills a lone cell and gives birth to nothing around it. -/
theorem lone_cell_rule (r0 c0 r c : Nat) (hr : 1 ≤ r) (hc : 1 ≤ c) :
    rule (inCell r0 c0 r c) (patternCount (inCell r0 c0) r c) = false := by
  obtain ⟨a, rfl⟩ : ∃ a, r = a + 1 := ⟨r - 1, by omega⟩
  obtain ⟨b, rfl⟩ : ∃ b, c = b + 1 := ⟨c - 1, by omega⟩
  unfold patternCount
  apply rule_eq_false
  simp only [mooreNeighbours, length_filter_cons, List.filter_nil, List.length_nil, inCell,
    Nat.add_sub_cancel, decide_eq_true_eq, decide_eq_false_iff_not]
  have hrow : (r0 < a ∨ a + 2 < r0) ∨ r0 = a ∨ r0 = a + 1 ∨ r0 = a + 2 := by omega
  have hcol : (c0 < b ∨ b + 2 < c0) ∨ c0 = b ∨ c0 = b + 1 ∨ c0 = b + 2 := by omega
  rcases hrow with h1 | h1 | h1 | h1 <;>
  rcases hcol with h2 | h2 | h2 | h2 <;>
  simp (disch := omega) only [toNat_decide_pos, toNat_decide_neg] <;>
  omega

/-- C13: underpopulation of an isolated cell.  In a valid grid whose only live
cell is the interior cell `(r0, c0)`, `update` returns the all-zero grid: the
cell `(r0, c0)` is dead and so is every other cell. -/
theorem lone_cell_dies (G : Field) (height width r0 c0 : Nat)
    (hv : ValidGrid G height width) (hr1 : 1 ≤ r0) (hr2 : r0 ≤ height - 2)
    (hc1 : 1 ≤ c0) (hc2 : c0 ≤ width - 2)
    (hG : ∀ r, r < height → ∀ c, c < width →
      (alive G r c width = true ↔ (r = r0 ∧ c = c0))) :
    ∃ G1, update G height width = some G1 ∧ alive G1 r0 c0 width = false ∧
      (∀ r, r < height → ∀ c, c < width → alive G1 r c width = false) ∧
      G1 = List.replicate (height * width / 8) 0 := by
  have hh := hv.height_u8
  have hw := hv.width_u8
  have hd : ValidDims height width :=
    ⟨hv.height_pos, hv.height_u8, hv.width_pos, hv.width_mul8, hv.width_u8⟩
  have hP : ∀ r c, r < height → c < width → getBit G width r c = inCell r0 c0 r c := by
    refine getBit_of_alive hv (inCell r0 c0) ?_
    intro r hr c hc
    unfold inCell
    rw [Bool.eq_iff_iff, hG r hr c hc, decide_eq_true_eq]
  have hint := interior_iff hr1 hr2 hc1 hc2
  have e : update G height width = some (List.replicate (height * width / 8) 0) := by
    refine update_eq_of_pattern hv (valid_replicate hd) (inCell r0 c0) (fun _ _ => false) hP
      (fun r c _ _ => getBit_replicate _ width r c)
      (fun r c hr hc => lone_cell_rule r0 c0 r c hr hc) ?_
    intro r c _ _ hni
    unfold inCell
    rw [decide_eq_false_iff_not]
    intro h
    exact hni (by rw [h.1, h.2]; exact hint)
  have hdead : ∀ r, r < height → ∀ c, c < width →
      alive (List.replicate (height * width / 8) 0) r c width = false := by
    intro r hr c hc
    rw [alive_eq_getBit _ hv.width_mul8 (by omega) (by omega) hw]
    exact getBit_replicate _ width r c
  unfold Interior at hint
  exact ⟨_, e, hdead r0 (by omega) c0 (by omega), hdead, rfl⟩

/-- The 10 x 16 grid of the specification whose only live cell is `(5,5)`. -/
theorem valid_lone :
    ValidGrid [0, 0, 0, 0, 0, 0, 0, 0, 0, 0, 32, 0, 0, 0, 0, 0, 0, 0, 0, 0] 10 16 :=
  ⟨by decide, by decide, by decide, by decide, by decide, by decide, by decide⟩

theorem lone_cell_dies_witness :
    ValidGrid [0, 0, 0, 0, 0, 0, 0, 0, 0, 0, 32, 0, 0, 0, 0, 0, 0, 0, 0, 0] 10 16 ∧
    (∀ r, r < 10 → ∀ c, c < 16 →
      (alive [0, 0, 0, 0, 0, 0, 0, 0, 0, 0, 32, 0, 0, 0, 0, 0, 0, 0, 0, 0] r c 16 = true ↔
        (r = 5 ∧ c = 5))) ∧
    ∃ G1, update [0, 0, 0, 0, 0, 0, 0, 0, 0, 0, 32, 0, 0, 0, 0, 0, 0, 0, 0, 0] 10 16 = some G1 ∧
      alive G1 5 5 16 = false ∧
      (∀ r, r < 10 → ∀ c, c < 16 → alive G1 r c 16 = false) ∧
      G1 = List.replicate (10 * 16 / 8) 0 :=
  ⟨valid_lone, by decide,
    lone_cell_dies [0, 0, 0, 0, 0, 0, 0, 0, 0, 0, 32, 0, 0, 0, 0, 0, 0, 0, 0, 0] 10 16 5 5
      valid_lone (by decide) (by decide) (by decide) (by decide) (by decide)⟩

/-! ## Generations -/

/-- One step leaves the border cells as they are and returns a valid grid. -/
theorem update_border_alive {G : Field} {height width : Nat}
    (hv : ValidGrid G height width) :
    ∃ G1, update G height width = some G1 ∧ ValidGrid G1 height width ∧
      ∀ row col, row < height → col < width → ¬ Interior height width row col →
        alive G1 row col width = alive G row col width := by
  have hh := hv.height_u8
  have hw := hv.width_u8
  obtain ⟨G1, e1, e2, e3, _, e5⟩ := update_spec hv
  refine ⟨G1, e1, update_valid hv e2 e3, ?_⟩
  intro row col hr hc hni
  rw [alive_eq_getBit G1 hv.width_mul8 (by omega) (by omega) hw,
    alive_eq_getBit G hv.width_mul8 (by omega) (by omega) hw]
  exact e5 row col hr hc hni

/-- C16: frozen border across generations.  For a valid grid, every number
`n` of rounds of the running loop and every border cell, the state of the
cell after `n` successive calls of `update` is its state in the initial grid. -/
theorem border_frozen (G : Field) (height width n row col : Nat)
    (hv : ValidGrid G height width) (hr : row < height) (hc : col < width)
    (hborder : row = 0 ∨ row = height - 1 ∨ col = 0 ∨ col = width - 1) :
    ∃ Gn, updateN G height width n = some Gn ∧ ValidGrid Gn height width ∧
      alive Gn row col width = alive G row col width := by
  have hni : ¬ Interior height width row col := by unfold Interior; omega
  induction n generalizing G with
  | zero => exact ⟨G, rfl, hv, rfl⟩
  | succ n ih =>
    obtain ⟨G1, e1, hv1, hb1⟩ := update_border_alive hv
    obtain ⟨Gn, e2, hv2, hb2⟩ := ih G1 hv1
    refine ⟨Gn, ?_, hv2, ?_⟩
    · simp only [updateN, e1]; exact e2
    · rw [hb2, hb1 row col hr hc hni]

theorem border_frozen_witness :
    ValidGrid [7, 2, 0] 3 8 ∧
    ∃ Gn, updateN [7, 2, 0] 3 8 4 = some Gn ∧ ValidGrid Gn 3 8 ∧
      alive Gn 0 1 8 = alive [7, 2, 0] 0 1 8 :=
  ⟨valid_sample,
    border_frozen [7, 2, 0] 3 8 4 0 1 valid_sample (by decide) (by decide) (Or.inl rfl)⟩

/-! ## Border seeds, index agreement, grids without interior -/

/-- C18: live border cells can seed a dead interior.  In the valid 3 x 8 grid
whose only live cells are the first three cells of row 0, every interior cell
is dead, and after `update` the interior cell `(1, 1)` is alive. -/
theorem border_seeds_interior :
    ∃ G height width, ValidGrid G height width ∧
      (∀ r c, Interior height width r c → alive G r c width = false) ∧
      ∃ G1, update G height width = some G1 ∧
        ∃ r c, Interior height width r c ∧ alive G1 r c width = true := by
  refine ⟨[7, 0, 0], 3, 8, valid_sample_dead, ?_, [7, 2, 0], by decide, 1, 1, by decide,
    by decide⟩
  intro r c hint
  unfold Interior at hint
  obtain ⟨h1, h2, h3, h4⟩ := hint
  have hr : r = 1 := by omega
  subst hr
  have hc7 : c < 7 := by omega
  interval_cases c <;> decide

/-- C19: byte-index agreement.  For a width that is a multiple of 8 and a row
and a column in `uint8_t` range with `col < width`, the index
`row*width/8 + col/8`, as computed by `bitIsAlive` and by the cell update of
`update`, is `cto1(row, col/8, width/8)`; and for all `uint8_t` arguments the
`uint32_t` result of `cto1` is the exact integer `y*width + x`. -/
theorem byte_index_agreement (width row col : Nat) (h8 : width % 8 = 0)
    (hw : width < 256) (hrow : row < 256) (hcol : col < width) :
    byteIndex row col width = cto1 row (col / 8) (width / 8) ∧
    wrap32 (byteIndex (wrap8 row) (wrap8 col) (wrap8 width)) =
      cto1 row (col / 8) (width / 8) ∧
    wrap32 (wrapSize (wrapSize (row * width) / 8 + col / 8)) =
      cto1 row (col / 8) (width / 8) ∧
    (∀ y x w, y < 256 → x < 256 → w < 256 → cto1 y x w = y * w + x) := by
  have hc : cto1 row (col / 8) (width / 8) = row * (width / 8) + col / 8 :=
    cto1_eq hrow (by omega) (by omega)
  have hb := byteIndex_lt h8 hrow (show col < 256 by omega) hw
  have h1 : row * width ≤ 255 * 255 := Nat.mul_le_mul (by omega) (by omega)
  refine ⟨?_, ?_, ?_, fun y x w hy hx hw1 => cto1_eq hy hx hw1⟩
  · rw [hc, byteIndex_eq h8]
  · rw [hc, wrap8_of_lt hrow, wrap8_of_lt (show col < 256 by omega), wrap8_of_lt hw,
      wrap32_of_lt (by omega), byteIndex_eq h8]
  · rw [hc, wrapSize_of_lt (show row * width < 18446744073709551616 by omega),
      mul_width_div h8]
    have h2 : row * (width / 8) ≤ 255 * 31 := Nat.mul_le_mul (by omega) (by omega)
    rw [wrapSize_of_lt (by omega), wrap32_of_lt (by omega)]

theorem byte_index_agreement_witness :
    160 % 8 = 0 ∧
    (byteIndex 43 159 160 = cto1 43 (159 / 8) (160 / 8) ∧
    wrap32 (byteIndex (wrap8 43) (wrap8 159) (wrap8 160)) = cto1 43 (159 / 8) (160 / 8) ∧
    wrap32 (wrapSize (wrapSize (43 * 160) / 8 + 159 / 8)) = cto1 43 (159 / 8) (160 / 8) ∧
    (∀ y x w, y < 256 → x < 256 → w < 256 → cto1 y x w = y * w + x)) :=
  ⟨by decide, byte_index_agreement 160 43 159 (by decide) (by decide) (by decide) (by decide)⟩

/-- C20: grids without an interior are fixed points.  For a valid grid of
height 1 or 2 the interior loop of `update` runs zero times and `update`
returns the input buffer, byte for byte. -/
theorem no_interior_fixed (G : Field) (height width : Nat)
    (hv : ValidGrid G height width) (hh : height = 1 ∨ height = 2) :
    subSize (wrap8 height) 1 - 1 = 0 ∧ update G height width = some G := by
  have hs : subSize height 1 - 1 = 0 := by
    rw [subSize_one hv.height_pos]; omega
  refine ⟨by rw [wrap8_of_lt hv.height_u8]; exact hs, ?_⟩
  unfold update
  simp only [wrap8_of_lt hv.height_u8, wrap8_of_lt hv.width_u8]
  rw [copyLoop_eq hv _ (by rw [List.length_replicate, hv.len])]
  simp only [hs, forLoop]

theorem no_interior_fixed_witness :
    ValidGrid [165, 90] 2 8 ∧
    (subSize (wrap8 2) 1 - 1 = 0 ∧ update [165, 90] 2 8 = some [165, 90]) :=
  ⟨⟨by decide, by decide, by decide, by decide, by decide, by decide, by decide⟩,
    no_interior_fixed [165, 90] 2 8
      ⟨by decide, by decide, by decide, by decide, by decide, by decide, by decide⟩
      (Or.inr rfl)⟩

/-! ## Only the count matters -/

/-- The neighbour count as a sum over the 8 neighbour positions. -/
theorem liveNeighbourCount_eq_sum (f : Field) (row col width : Nat) :
    liveNeighbourCount f row col width =
      ∑ k : Fin 8,
        (alive f (neighbourAt row col k).1 (neighbourAt row col k).2 width).toNat := by
  simp only [liveNeighbourCount, Fin.sum_univ_eight, neighbourAt, mooreNeighbours,
    length_filter_cons, List.filter_nil, List.length_nil]
  simp only [List.getD_cons_zero, List.getD_cons_succ, Fin.val_zero, Fin.val_one, Fin.val_two,
    show ((3 : Fin 8) : Nat) = 3 from rfl, show ((4 : Fin 8) : Nat) = 4 from rfl,
    show ((5 : Fin 8) : Nat) = 5 from rfl, show ((6 : Fin 8) : Nat) = 6 from rfl,
    show ((7 : Fin 8) : Nat) = 7 from rfl]
  omega

/-- C15: only the count matters.  For two valid grids of the same dimensions
and an interior cell, if the live neighbours of the cell in `G2` are the image
of its live neighbours in `G1` under a permutation of the 8 neighbour
positions, then the loops of `update` compute the same neighbour count in
both grids, and if moreover the cell has the same state in both grids it has
the same state after `update`. -/
theorem count_permutation_invariant (G1 G2 : Field) (height width row col : Nat)
    (hv1 : ValidGrid G1 height width) (hv2 : ValidGrid G2 height width)
    (hr1 : 1 ≤ row) (hr2 : row ≤ height - 2) (hc1 : 1 ≤ col) (hc2 : col ≤ width - 2)
    (σ : Equiv.Perm (Fin 8))
    (hσ : ∀ k : Fin 8,
      alive G2 (neighbourAt row col (σ k)).1 (neighbourAt row col (σ k)).2 width =
        alive G1 (neighbourAt row col k).1 (neighbourAt row col k).2 width) :
    (∃ n, numLiveNeighbors G1 row col width = some n ∧
      numLiveNeighbors G2 row col width = some n) ∧
    (alive G1 row col width = alive G2 row col width →
      ∃ U1 U2, update G1 height width = some U1 ∧ update G2 height width = some U2 ∧
        alive U1 row col width = alive U2 row col width) := by
  have hh := hv1.height_u8
  have hw := hv1.width_u8
  have h8 := hv1.width_mul8
  have hint := interior_iff hr1 hr2 hc1 hc2
  have hr : row < height := by unfold Interior at hint; omega
  have hc : col < width := by unfold Interior at hint; omega
  have hcount : liveNeighbourCount G1 row col width = liveNeighbourCount G2 row col width := by
    rw [liveNeighbourCount_eq_sum, liveNeighbourCount_eq_sum]
    rw [← Equiv.sum_comp σ
      (fun k => (alive G2 (neighbourAt row col k).1 (neighbourAt row col k).2 width).toNat)]
    exact Finset.sum_congr rfl (fun k _ => by rw [hσ k])
  refine ⟨⟨_, numLiveNeighbors_eq hv1 hr1 (by omega) hc1 (by omega), ?_⟩, ?_⟩
  · rw [hcount]
    exact numLiveNeighbors_eq hv2 hr1 (by omega) hc1 (by omega)
  · intro hsame
    obtain ⟨U1, e1, _, _, e4, _⟩ := update_spec hv1
    obtain ⟨U2, f1, _, _, f4, _⟩ := update_spec hv2
    refine ⟨U1, U2, e1, f1, ?_⟩
    rw [alive_eq_getBit G1 h8 (by omega) (by omega) hw,
      alive_eq_getBit G2 h8 (by omega) (by omega) hw] at hsame
    rw [alive_eq_getBit U1 h8 (by omega) (by omega) hw,
      alive_eq_getBit U2 h8 (by omega) (by omega) hw,
      e4 row col hr hc hint, f4 row col hr hc hint, nextCell, nextCell, hsame, hcount]

theorem count_permutation_invariant_witness :
    ValidGrid [1, 2, 0] 3 8 ∧ ValidGrid [2, 2, 0] 3 8 ∧
    (∀ k : Fin 8,
      alive [2, 2, 0] (neighbourAt 1 1 (Equiv.swap (0 : Fin 8) 1 k)).1
          (neighbourAt 1 1 (Equiv.swap (0 : Fin 8) 1 k)).2 8 =
        alive [1, 2, 0] (neighbourAt 1 1 k).1 (neighbourAt 1 1 k).2 8) ∧
    alive [1, 2, 0] 1 1 8 = alive [2, 2, 0] 1 1 8 ∧
    (∃ n, numLiveNeighbors [1, 2, 0] 1 1 8 = some n ∧
      numLiveNeighbors [2, 2, 0] 1 1 8 = some n) ∧
    (alive [1, 2, 0] 1 1 8 = alive [2, 2, 0] 1 1 8 →
      ∃ U1 U2, update [1, 2, 0] 3 8 = some U1 ∧ update [2, 2, 0] 3 8 = some U2 ∧
        alive U1 1 1 8 = alive U2 1 1 8) :=
  ⟨⟨by decide, by decide, by decide, by decide, by decide, by decide, by decide⟩,
    ⟨by decide, by decide, by decide, by decide, by decide, by decide, by decide⟩,
    by decide, by decide,
    count_permutation_invariant [1, 2, 0] [2, 2, 0] 3 8 1 1
      ⟨by decide, by decide, by decide, by decide, by decide, by decide, by decide⟩
      ⟨by decide, by decide, by decide, by decide, by decide, by decide, by decide⟩
      (by decide) (by decide) (by decide) (by decide) (Equiv.swap (0 : Fin 8) 1)
      (by decide)⟩

/-! ## Rendering -/

theorem mvaddch_apply (scr : Screen) (i x0 : Nat) (ch : Char) (y x : Nat) :
    mvaddch scr i x0 ch y x = if y = i ∧ x = x0 then ch else scr y x := rfl

theorem paint_apply (t : Bool) (scr : Screen) (i x0 y x : Nat) :
    paint t scr i x0 y x =
      if y = i ∧ x = x0 then (if t then 'x' else scr y x) else scr y x := by
  unfold paint
  cases t
  · simp
  · simp [mvaddch_apply]

theorem paintBit_eq (f : Field) (index mask k b : Nat) (scr : Screen) (i x : Nat)
    (hb : f[index]? = some b) (hm : mask = 2 ^ k) :
    paintBit f index mask scr i x = some (paint (b.testBit k) scr i x) := by
  unfold paintBit paint
  rw [hb, hm]
  have h := and_two_pow_ne_zero b k
  cases ht : b.testBit k
  · rw [ht] at h
    have h0 : b &&& 2 ^ k = 0 := by simpa using h
    simp [h0]
  · rw [ht] at h
    have h0 : b &&& 2 ^ k ≠ 0 := by simpa using h
    simp [h0]

/-- The body of the loop over `j` of `renderField` repaints the 8 positions
`(i, j*8) .. (i, j*8+7)` from the bits of the byte `b` it reads and touches no
other position. -/
theorem renderGroup_spec (f : Field) (width : Nat) (scr : Screen) (i j b : Nat)
    (hb : f[cto1 i j (width / 8)]? = some b) :
    ∃ scr1, renderGroup f width scr i j = some scr1 ∧
      ∀ y x, scr1 y x =
        if y = i ∧ j * 8 ≤ x ∧ x < j * 8 + 8 then
          (if b.testBit (x - j * 8) then 'x' else ' ')
        else scr y x := by
  unfold renderGroup
  simp only [forLoop]
  rw [paintBit_eq f _ 0x01 0 b _ _ _ hb rfl]
  simp only [Option.bind]
  rw [paintBit_eq f _ 0x02 1 b _ _ _ hb rfl]
  simp only [Option.bind]
  rw [paintBit_eq f _ 0x04 2 b _ _ _ hb rfl]
  simp only [Option.bind]
  rw [paintBit_eq f _ 0x08 3 b _ _ _ hb rfl]
  simp only [Option.bind]
  rw [paintBit_eq f _ 0x10 4 b _ _ _ hb rfl]
  simp only [Option.bind]
  rw [paintBit_eq f _ 0x20 5 b _ _ _ hb rfl]
  simp only [Option.bind]
  rw [paintBit_eq f _ 0x40 6 b _ _ _ hb rfl]
  simp only [Option.bind]
  rw [paintBit_eq f _ 0x80 7 b _ _ _ hb rfl]
  refine ⟨_, rfl, ?_⟩
  intro y x
  simp only [paint_apply, mvaddch_apply]
  by_cases hy : y = i
  · have hx : x < j * 8 ∨ x = j * 8 + 0 ∨ x = j * 8 + 1 ∨ x = j * 8 + 2 ∨ x = j * 8 + 3 ∨
        x = j * 8 + 4 ∨ x = j * 8 + 5 ∨ x = j * 8 + 6 ∨ x = j * 8 + 7 ∨ j * 8 + 8 ≤ x := by
      omega
    rcases hx with h | h | h | h | h | h | h | h | h | h
    · have hn : ∀ k, ¬ (x = j * 8 + k) := fun k => by omega
      have hn2 : ¬ (j * 8 ≤ x) := by omega
      have hn0 : ¬ (x = j * 8) := by omega
      simp [hy, hn, hn2, hn0]
    all_goals first
      | (subst h; simp [hy])
      | (have hn : ∀ k, k < 8 → ¬ (x = j * 8 + k) := fun k hk => by omega
         have hn2 : ¬ (x < j * 8 + 8) := by omega
         have hn0 : ¬ (x = j * 8) := by omega
         simp [hy, hn, hn2, hn0])
  · simp [hy]

theorem renderInv_congr {f : Field} {width : Nat} {scr s : Screen} {i j i1 j1 : Nat}
    (h : RenderInv f width scr i j s)
    (hcond : ∀ y x, (x < width ∧ (y < i ∨ (y = i ∧ x < j * 8))) ↔
      (x < width ∧ (y < i1 ∨ (y = i1 ∧ x < j1 * 8)))) :
    RenderInv f width scr i1 j1 s := by
  intro y x
  rw [h y x]
  by_cases hc : x < width ∧ (y < i ∨ (y = i ∧ x < j * 8))
  · rw [if_pos hc, if_pos ((hcond y x).1 hc)]
  · rw [if_neg hc, if_neg (fun h1 => hc ((hcond y x).2 h1))]

/-- One group of 8 cells carries the invariant of `renderField` from column
`j * 8` to column `(j + 1) * 8`. -/
theorem renderGroup_inv {f : Field} {height width : Nat} (hv : ValidGrid f height width)
    (scr : Screen) {i j : Nat} (hi : i < height) (hj : j < width / 8) (s : Screen)
    (hI : RenderInv f width scr i j s) :
    ∃ s1, renderGroup f width s i j = some s1 ∧ RenderInv f width scr i (j + 1) s1 := by
  have hh := hv.height_u8
  have hw := hv.width_u8
  have h8 := hv.width_mul8
  have hcto : cto1 i j (width / 8) = i * (width / 8) + j :=
    cto1_eq (by omega) (by omega) (by omega)
  have hidx : i * (width / 8) + j < f.length := by
    rw [hv.length_eq]
    have h1 : (i + 1) * (width / 8) ≤ height * (width / 8) := Nat.mul_le_mul_right _ hi
    rw [Nat.succ_mul] at h1
    omega
  have hb : f[cto1 i j (width / 8)]? = some (f[i * (width / 8) + j]) := by
    rw [hcto]; exact List.getElem?_eq_getElem hidx
  obtain ⟨s1, e1, e2⟩ := renderGroup_spec f width s i j _ hb
  refine ⟨s1, e1, ?_⟩
  intro y x
  rw [e2 y x]
  by_cases hg : y = i ∧ j * 8 ≤ x ∧ x < j * 8 + 8
  · have hxw : x < width := by omega
    have hc2 : x < width ∧ (y < i ∨ (y = i ∧ x < (j + 1) * 8)) :=
      ⟨hxw, Or.inr ⟨hg.1, by omega⟩⟩
    rw [if_pos hg, if_pos hc2]
    obtain ⟨hy, hx1, hx2⟩ := hg
    subst hy
    unfold glyph
    rw [alive_eq_getBit f h8 (by omega) (by omega) hw]
    unfold getBit
    have hdiv : x / 8 = j := by omega
    have hmod : x % 8 = x - j * 8 := by omega
    rw [hdiv, hmod, List.getElem?_eq_getElem hidx]
  · rw [if_neg hg, hI y x]
    by_cases hc : x < width ∧ (y < i ∨ (y = i ∧ x < j * 8))
    · rw [if_pos hc, if_pos (by omega)]
    · rw [if_neg hc, if_neg (by omega)]

/-- C17: rendering.  For a valid grid and any initial content of the screen,
`renderField` leaves at every position `(row, col)` with `row < height` and
`col < width` the character `x` when `bitIsAlive` reports the cell alive and
a blank otherwise, and it leaves every position outside
`[0,height) x [0,width)` as it was: no such position is written. -/
theorem renderField_paints (G : Field) (height width : Nat) (scr : Screen)
    (hv : ValidGrid G height width) :
    ∃ scr1, renderField G height width scr = some scr1 ∧
      (∀ row col, row < height → col < width →
        scr1 row col = if alive G row col width = true then 'x' else ' ') ∧
      (∀ y x, ¬ (y < height ∧ x < width) → scr1 y x = scr y x) := by
  have h8 := hv.width_mul8
  have h0 : RenderInv G width scr 0 0 scr := by
    intro y x
    rw [if_neg (by omega)]
  obtain ⟨s1, e1, e2⟩ := forLoop_inv
    (fun s i => forLoop (fun s j => renderGroup G width s i j) (width / 8) 0 s)
    (fun i s => RenderInv G width scr i 0 s) height 0 scr h0
    (by
      intro i s _ hi hs
      obtain ⟨t, ht1, ht2⟩ := forLoop_inv (fun s j => renderGroup G width s i j)
        (fun j s => RenderInv G width scr i j s) (width / 8) 0 s hs
        (fun j u _ hj hu => renderGroup_inv hv scr (by omega) (by omega) u hu)
      exact ⟨t, ht1, renderInv_congr ht2 (fun y x => by omega)⟩)
  refine ⟨s1, ?_, ?_, ?_⟩
  · unfold renderField
    simp only [wrap8_of_lt hv.height_u8, wrap8_of_lt hv.width_u8]
    exact e1
  · intro row col hr hc
    rw [e2 row col, if_pos (by omega)]
    rfl
  · intro y x hout
    rw [e2 y x, if_neg (by omega)]

theorem renderField_paints_witness :
    ValidGrid [7, 2, 0] 3 8 ∧
    ∃ scr1, renderField [7, 2, 0] 3 8 (fun _ _ => 'z') = some scr1 ∧
      (∀ row col, row < 3 → col < 8 →
        scr1 row col = if alive [7, 2, 0] row col 8 = true then 'x' else ' ') ∧
      (∀ y x, ¬ (y < 3 ∧ x < 8) → scr1 y x = (fun _ _ => 'z' : Screen) y x) :=
  ⟨valid_sample, renderField_paints [7, 2, 0] 3 8 (fun _ _ => 'z') valid_sample⟩

end GoL
